import Mathlib

/-!
# go-file-searcher: a verification development

A shallow embedding of `main.go` (package `main`) and proofs about it.

* A Go `string` is a sequence of bytes: `GoString := List UInt8`.
* A goroutine's effects (channel sends, writes to the standard streams) are
  recorded, in program order, in an explicit state that is passed along.
* Library code the program calls (`filepath.SplitList`, `filepath.Ext`,
  `filepath.Walk`, `os.Open`, `bufio.Scanner`, `fmt.Printf`) is modelled after
  its Go implementation for Unix; each such definition says so.
* The matcher `fuzzy.Match` is a parameter of every definition that calls it.
-/

set_option maxRecDepth 100000

namespace FileSearcher

/-! ## Strings -/

/-- A Go string: an immutable sequence of bytes. -/
abbrev GoString := List UInt8

/-- The bytes (UTF-8) of a string literal of the source. -/
def str (s : String) : GoString := s.toUTF8.data.toList

/-- The Go conversion `string(b)` of a byte `b`: the UTF-8 encoding of the code
point whose number is `b` (one byte below 0x80, two bytes from 0x80 on). -/
def byteToString (b : UInt8) : GoString :=
  if b.toNat < 128 then [b]
  else [UInt8.ofNat (192 + b.toNat / 64), UInt8.ofNat (128 + b.toNat % 64)]

/-- The Go slice expression `s[lo:hi]`. -/
def slice (s : GoString) (lo hi : Nat) : GoString := (s.drop lo).take (hi - lo)

/-- The Go slice expression `s[lo:]`. -/
def sliceFrom (s : GoString) (lo : Nat) : GoString := s.drop lo

/-! ## `SearchResult` -/

/-- The record `SearchResult` of the source. `LineNumber` is a Go `int`; it is
only ever produced by counting the lines of one file, so it never wraps. -/
structure SearchResult where
  FilePath : GoString
  LineNumber : Int
  LineContent : GoString
deriving DecidableEq, Repr

/-! ## `splitComma`, `trimSpace`, `splitAndTrim` -/

/-- The loop of `splitComma`: `rest` is `s[i:]`, `start` and `result` are the
variables of the source. -/
def splitCommaLoop (s sep : GoString) :
    List UInt8 → Nat → Nat → List GoString → List GoString
  | [], _, start, result => result ++ [sliceFrom s start]
  | b :: rest, i, start, result =>
    if byteToString b = sep then
      splitCommaLoop s sep rest (i + 1) (i + 1) (result ++ [slice s start i])
    else
      splitCommaLoop s sep rest (i + 1) start result

/-- The function `splitComma(s, sep)` of the source. -/
def splitComma (s sep : GoString) : List GoString :=
  splitCommaLoop s sep s 0 0 []

/-- The function `trimSpace(s)` of the source: `string([]byte(s))`, a copy. -/
def trimSpace (s : GoString) : GoString := s

/-- The value of `filepath.ListSeparator` on Unix, the byte `:`. -/
def ListSeparator : UInt8 := 58

/-- Library model of `filepath.SplitList` (Unix): the empty string gives the
empty list; any other string is `strings.Split(path, ":")`. -/
def SplitList (path : GoString) : List GoString :=
  if path = [] then [] else List.splitOnP (fun b => b == ListSeparator) path

/-- The function `splitAndTrim(s, sep)` of the source: the two nested `range`
loops, appending to `result`. -/
def splitAndTrim (s sep : GoString) : List GoString :=
  (SplitList s).foldl
    (fun result part =>
      (splitComma part sep).foldl
        (fun result sub =>
          let trimmed := trimSpace sub
          if trimmed ≠ [] then result ++ [trimmed] else result)
        result)
    []

/-! ## The extension map -/

/-- A Go `map[string]struct{}`: the list of its keys, without repetition. -/
abbrev ExtMap := List GoString

/-- The Go statement `extMap[ext] = struct{}{}`. -/
def ExtMap.set (m : ExtMap) (ext : GoString) : ExtMap :=
  if ext ∈ m then m else m ++ [ext]

/-- The Go expression `len(extMap)`. -/
def ExtMap.len (m : ExtMap) : Nat := m.length

/-- The `ok` of the Go expression `_, ok := extMap[ext]`. -/
def ExtMap.has (m : ExtMap) (ext : GoString) : Bool := decide (ext ∈ m)

/-- The first block of `main`: `extMap` as built from the value of `-ext`. -/
def buildExtMap (extFilter : GoString) : ExtMap :=
  if extFilter ≠ [] then
    (splitAndTrim extFilter (str ",")).foldl ExtMap.set []
  else []

/-! ## `main` -/

/-- The parsed command line: the values `flag.Parse` stores behind the four
flag pointers (`-path`, `-pattern`, `-workers`, `-ext`). -/
structure Flags where
  rootPath : GoString
  pattern : GoString
  numWorkers : Int
  extFilter : GoString
deriving DecidableEq

/-- What `main` does to the outside, one constructor per effectful statement
of its body. -/
inductive Action where
  /-- The call `fmt.Println(msg)`. -/
  | println (msg : GoString)
  /-- The statement `filePathChannel := make(chan string)`. -/
  | makeFilePathChannel
  /-- The statement `resultChannel := make(chan SearchResult)`. -/
  | makeResultChannel
  /-- The call `wg.Add(1)`. -/
  | wgAdd
  /-- The statement `go walkFiles(rootPath, filePathChannel, &wg, extMap)`. -/
  | goWalkFiles (rootPath : GoString) (extMap : ExtMap)
  /-- The statement `go searchWorker(filePathChannel, resultChannel, pattern, &wg)`. -/
  | goSearchWorker (pattern : GoString)
  /-- The statement `go printResults(resultChannel)`. -/
  | goPrintResults
  /-- The call `wg.Wait()`. -/
  | wgWait
  /-- The statement `close(resultChannel)`. -/
  | closeResultChannel
deriving DecidableEq

/-- The usage message of `main`. -/
def usageMessage : GoString :=
  str "Please provide a search pattern using the -pattern flag."

/-- The warning `main` prints for a non-positive worker count. -/
def workersWarning : GoString :=
  str "Number of workers must be greater than 0. Using default number of CPU cores."

/-- The loop `for i := 0; i < numWorkers; i++ { wg.Add(1); go searchWorker(...) }`:
`fuel` bounds the iterations still to come. -/
def launchLoop (pattern : GoString) (numWorkers : Int) : Nat → Int → List Action
  | 0, _ => []
  | fuel + 1, i =>
    if i < numWorkers then
      [Action.wgAdd, Action.goSearchWorker pattern] ++ launchLoop pattern numWorkers fuel (i + 1)
    else []

/-- The function `main` of the source, after `flag.Parse`: the sequence of its
effects. `numCPU` is the value `runtime.NumCPU()` returns; the Go division
`runtime.NumCPU() / 2` truncates toward zero. -/
def main (flags : Flags) (numCPU : Int) : List Action :=
  let rootPath := flags.rootPath
  let pattern := flags.pattern
  let numWorkers := flags.numWorkers
  let extMap := buildExtMap flags.extFilter
  if pattern = [] then
    [Action.println usageMessage]
  else
    let warn := if numWorkers ≤ 0 then [Action.println workersWarning] else []
    let numWorkers := if numWorkers ≤ 0 then Int.tdiv numCPU 2 else numWorkers
    warn ++
    [Action.makeFilePathChannel, Action.makeResultChannel,
     Action.wgAdd, Action.goWalkFiles rootPath extMap] ++
    launchLoop pattern numWorkers numWorkers.toNat 0 ++
    [Action.goPrintResults, Action.wgWait, Action.closeResultChannel]

/-- Whether an action starts a scan worker. -/
def Action.isWorker : Action → Bool
  | .goSearchWorker _ => true
  | _ => false

/-- Whether an action starts the walker. -/
def Action.isWalker : Action → Bool
  | .goWalkFiles _ _ => true
  | _ => false

/-- Whether an action creates one of the two queues. -/
def Action.isMake : Action → Bool
  | .makeFilePathChannel => true
  | .makeResultChannel => true
  | _ => false

/-- The number of scan workers `main` launches. -/
def workersLaunched (flags : Flags) (numCPU : Int) : Nat :=
  (main flags numCPU).countP Action.isWorker

/-! ## `filepath.Ext` and `filepath.Walk` -/

/-- The loop of `filepath.Ext`: `before` holds `path[0..i]` in reverse (its
head is `path[i]`), `after` is `path[i+1:]`. -/
def ExtLoop : List UInt8 → List UInt8 → GoString
  | [], _ => []
  | b :: before, after =>
    if b = 47 then []                       -- os.IsPathSeparator(path[i])
    else if b = 46 then b :: after          -- path[i] == 46, a dot: return path[i:]
    else ExtLoop before (b :: after)

/-- Library model of `filepath.Ext` (Unix): the suffix of `path` that starts at
the last dot of its last element, the empty string when there is no dot. -/
def Ext (path : GoString) : GoString := ExtLoop path.reverse []

/-- The Go interface `os.FileInfo`, as far as the program reads it. -/
structure FileInfo where
  IsDir : Bool
deriving DecidableEq

/-- A non-nil Go `error`, as far as `filepath.Walk` tells errors apart. -/
inductive GoError where
  /-- The value `filepath.SkipDir`. -/
  | SkipDir
  /-- The value `filepath.SkipAll`. -/
  | SkipAll
  /-- Any other error (a failed system call). -/
  | failure
deriving DecidableEq

mutual
/-- A directory tree as `filepath.Walk` meets it: every entry carries the path
under which `Walk` reports it, and is one of the four outcomes of `os.Lstat`
followed, for a directory, by reading its names. An entry that cannot be
examined, and the inside of a directory that cannot be read, do not belong to
the tree any further. -/
inductive Entry where
  /-- The call `os.Lstat` fails: no `FileInfo`. -/
  | noinfo (path : GoString)
  /-- It is not a directory (`IsDir()` is false). -/
  | file (path : GoString)
  /-- A directory whose names cannot be read. -/
  | unlistable (path : GoString)
  /-- A directory and its entries, in the order of their names. -/
  | dir (path : GoString) (names : Entries)
/-- The entries of one directory. -/
inductive Entries where
  | nil
  | cons (e : Entry) (rest : Entries)
end

/-- The Go type `filepath.WalkFunc`, with the state `σ` its closure acts on. -/
abbrev WalkFunc (σ : Type) := σ → GoString → Option FileInfo → Option GoError → σ × Option GoError

mutual
/-- Library model of the unexported `filepath.walk(path, info, walkFn)`. For an
entry whose `os.Lstat` failed it stands for the call `walkFn(path, nil, err)`
that the caller makes in the place of `walk`. -/
def walk {σ : Type} (walkFn : WalkFunc σ) : Entry → σ → σ × Option GoError
  | .noinfo path, s => walkFn s path none (some GoError.failure)
  | .file path, s => walkFn s path (some ⟨false⟩) none
  | .unlistable path, s => walkFn s path (some ⟨true⟩) (some GoError.failure)
  | .dir path names, s =>
    match walkFn s path (some ⟨true⟩) none with
    | (s1, err1) => if err1 ≠ none then (s1, err1) else walkNames walkFn names s1
/-- The loop `for _, name := range names` of `filepath.walk`. -/
def walkNames {σ : Type} (walkFn : WalkFunc σ) : Entries → σ → σ × Option GoError
  | .nil, s => (s, none)
  | .cons e rest, s =>
    match e with
    | .noinfo path =>
      match walkFn s path none (some GoError.failure) with
      | (s1, err) =>
        if err ≠ none ∧ err ≠ some GoError.SkipDir then (s1, err)
        else walkNames walkFn rest s1
    | .file _ =>
      match walk walkFn e s with
      | (s1, err) => if err ≠ none then (s1, err) else walkNames walkFn rest s1
    | _ =>
      match walk walkFn e s with
      | (s1, err) =>
        if err ≠ none ∧ err ≠ some GoError.SkipDir then (s1, err)
        else walkNames walkFn rest s1
end

/-- Library model of `filepath.Walk(root, fn)`. -/
def Walk {σ : Type} (fn : WalkFunc σ) (root : Entry) (s : σ) : σ × Option GoError :=
  let r :=
    match root with
    | .noinfo path => fn s path none (some GoError.failure)   -- os.Lstat(root) fails
    | _ => walk fn root s
  if r.2 = some GoError.SkipDir ∨ r.2 = some GoError.SkipAll then (r.1, none) else r

/-! ## `walkFiles` -/

/-- What the walker goroutine has done: the paths sent on `filePathChannel`,
the paths named in its diagnostics on standard error, the lines written to
standard output, and whether the deferred calls have run. -/
structure WalkerState where
  sent : List GoString
  stderr : List GoString
  stdout : List GoString
  closed : Bool
  done : Bool
deriving DecidableEq

/-- The walker before its first statement. -/
def WalkerState.init : WalkerState := ⟨[], [], [], false, false⟩

/-- The function literal `walkFiles` passes to `filepath.Walk`. -/
def walkFn (extMap : ExtMap) : WalkFunc WalkerState := fun st path info err =>
  match err with
  | some _ => ({ st with stderr := st.stderr ++ [path] }, none)
  | none =>
    match info with
    | none => (st, none)   -- not reached: Walk passes no FileInfo only with an error
    | some info =>
      if !info.IsDir then
        if extMap.len > 0 then
          let ext := Ext path
          if !extMap.has ext then (st, none)
          else ({ st with sent := st.sent ++ [path] }, none)
        else ({ st with sent := st.sent ++ [path] }, none)
      else (st, none)

/-- The function `walkFiles` of the source, on the tree found at `rootPath`. -/
def walkFiles (root : Entry) (extMap : ExtMap) : WalkerState :=
  match Walk (walkFn extMap) root WalkerState.init with
  | (st, err) =>
    let st := if err ≠ none then { st with stdout := st.stdout ++ [str "Error walking the path:"] } else st
    { st with closed := true, done := true }

mutual
/-- The non-directory entries of a tree, by path, in the order of the walk. -/
def Entry.files : Entry → List GoString
  | .noinfo _ => []
  | .file path => [path]
  | .unlistable _ => []
  | .dir _ names => names.files
/-- The non-directory entries of the trees of a directory. -/
def Entries.files : Entries → List GoString
  | .nil => []
  | .cons e rest => e.files ++ rest.files
end

mutual
/-- The entries of a tree that fail to be examined or read, by path. -/
def Entry.failures : Entry → List GoString
  | .noinfo path => [path]
  | .file _ => []
  | .unlistable path => [path]
  | .dir _ names => names.failures
/-- The failing entries of the trees of a directory. -/
def Entries.failures : Entries → List GoString
  | .nil => []
  | .cons e rest => e.failures ++ rest.failures
end

/-- The filtering policy: the extension set is empty, or holds the extension. -/
def passes (extMap : ExtMap) (path : GoString) : Prop :=
  extMap = [] ∨ Ext path ∈ extMap

instance (extMap : ExtMap) (path : GoString) : Decidable (passes extMap path) := by
  unfold passes; infer_instance

/-- The walker after a part of the walk that offers `files` and reports
`failures`. -/
def WalkerState.after (st : WalkerState) (extMap : ExtMap) (files failures : List GoString) :
    WalkerState :=
  { st with
    sent := st.sent ++ files.filter (fun f => decide (passes extMap f)),
    stderr := st.stderr ++ failures }

/-- A tree with failures, walked from the root `.`: the entry `gone` cannot be
examined and the directory `locked` cannot be read. -/
def damagedTree : Entry :=
  .dir (str ".")
    (.cons (.file (str "a.txt"))
      (.cons (.noinfo (str "gone"))
        (.cons (.unlistable (str "locked"))
          (.cons (.dir (str "src")
            (.cons (.file (str "src/README")) (.cons (.file (str "src/b.go")) .nil)))
            .nil))))

/-- A root `.` that holds the two files `a.b:c` and `x.b`. -/
def colonTree : Entry :=
  .dir (str ".") (.cons (.file (str "a.b:c")) (.cons (.file (str "x.b")) .nil))

/-- A root `.` that holds the file `a.txt` only. -/
def singleFileTree : Entry :=
  .dir (str ".") (.cons (.file (str "a.txt")) .nil)

/-- The tree of the scenario of the specification, walked from the root `.`. -/
def scenarioTree : Entry :=
  .dir (str ".") (.cons (.file (str "a.txt")) (.cons (.file (str "b.go")) .nil))

/-! ## `bufio.Scanner` -/

/-- The constant `bufio.MaxScanTokenSize`, the token limit of a scanner made
by `bufio.NewScanner`. -/
def MaxScanTokenSize : Nat := 64 * 1024

/-- Library model of `bytes.IndexByte(data, c)`: `none` stands for -1. -/
def IndexByte : GoString → UInt8 → Option Nat
  | [], _ => none
  | b :: rest, c => if b = c then some 0 else (IndexByte rest c).map (fun i => i + 1)

/-- Library model of the unexported `bufio.dropCR`: one trailing carriage
return (byte 13) is dropped. -/
def dropCR (data : GoString) : GoString :=
  if data.getLast? = some 13 then data.dropLast else data

/-- Library model of the split function `bufio.ScanLines(data, atEOF)`: the
advance and the token (`none` for a nil token). -/
def ScanLines (data : GoString) (atEOF : Bool) : Nat × Option GoString :=
  if atEOF = true ∧ data.length = 0 then (0, none)
  else
    match IndexByte data 10 with
    | some i => (i + 1, some (dropCR (data.take i)))
    | none => if atEOF = true then (data.length, some (dropCR data)) else (0, none)

/-- Library model of one call of `scanner.Scan()` on a scanner made by
`bufio.NewScanner(file)`, with `unread` the bytes of the file after the last
token: the next token and the bytes after it, or `none` when `Scan` returns
false. The buffer grows to `MaxScanTokenSize` bytes and no further. When less
than that is left, all of it is read, the end of the file is seen and the
split function is called with `atEOF` set. Otherwise the full buffer holds the
next `MaxScanTokenSize` bytes; when the split function finds no token in it,
`Scan` sets `ErrTooLong` and returns false. -/
def Scan (unread : GoString) : Option (GoString × GoString) :=
  let r :=
    if unread.length < MaxScanTokenSize then ScanLines unread true
    else ScanLines (unread.take MaxScanTokenSize) false
  match r.2 with
  | some token => some (token, unread.drop r.1)
  | none => none

/-- The tokens `scanner.Text()` yields in the loop `for scanner.Scan()`, on the
bytes `unread`; `fuel` bounds the number of calls of `Scan`. -/
def scanTokens : Nat → GoString → List GoString
  | 0, _ => []
  | fuel + 1, unread =>
    match Scan unread with
    | some (token, rest) => token :: scanTokens fuel rest
    | none => []

/-! ## `searchWorker` -/

/-- What `os.Open` gives for a path: `none` when it returns an error, otherwise
the bytes of the file. -/
abbrev Disk := GoString → Option GoString

/-- What `os.Open` and `bufio.Scanner` give for a path: `none` when `os.Open`
returns an error, otherwise the tokens `scanner.Text()` yields, one per
successful `scanner.Scan()`, until `Scan` returns false. These are the lines
of the file only as far as the scanner gets: see `Disk.scan`. -/
abbrev FileSystem := GoString → Option (List GoString)

/-- The file system a worker sees on a disk: every file that opens is scanned
by a scanner of its own; a scan needs at most one call of `Scan` per byte. -/
def Disk.scan (disk : Disk) : FileSystem := fun path =>
  (disk path).map (fun data => scanTokens data.length data)

/-- The external collaborator `fuzzy.Match(pattern, line)`. -/
abbrev Matcher := GoString → GoString → Bool

/-- What a scan worker has done: the values sent on `resultChannel`, the paths
named in its diagnostics on standard error, and whether `wg.Done` has run. -/
structure WorkerState where
  results : List SearchResult
  stderr : List GoString
  done : Bool
deriving DecidableEq

/-- A worker before its first statement. -/
def WorkerState.init : WorkerState := ⟨[], [], false⟩

/-- The loop `for scanner.Scan()` of `searchWorker`, on the lines still to be
scanned; `lineNum` is the variable of the source. -/
def scanLoop (Match : Matcher) (pattern filePath : GoString) :
    List GoString → Int → WorkerState → WorkerState
  | [], _, st => st
  | line :: rest, lineNum, st =>
    let lineNum := lineNum + 1
    if Match pattern line then
      scanLoop Match pattern filePath rest lineNum
        { st with results := st.results ++ [⟨filePath, lineNum, line⟩] }
    else
      scanLoop Match pattern filePath rest lineNum st

/-- The loop `for filePath := range filePathChannel` of `searchWorker`, on the
paths this worker receives until the channel is closed. -/
def searchLoop (fs : FileSystem) (Match : Matcher) (pattern : GoString) :
    List GoString → WorkerState → WorkerState
  | [], st => st
  | filePath :: rest, st =>
    match fs filePath with
    | none =>
      -- err != nil: diagnostic, then `continue`
      searchLoop fs Match pattern rest { st with stderr := st.stderr ++ [filePath] }
    | some lines =>
      searchLoop fs Match pattern rest (scanLoop Match pattern filePath lines 0 st)

/-- The function `searchWorker` of the source, run on the sequence of paths it
receives from `filePathChannel`. -/
def searchWorker (fs : FileSystem) (Match : Matcher) (pattern : GoString)
    (paths : List GoString) : WorkerState :=
  { searchLoop fs Match pattern paths WorkerState.init with done := true }

/-! ## `fmt.Printf` and `printResults` -/

/-- An operand of `fmt.Printf`. -/
inductive Arg where
  | string (s : GoString)
  | int (n : Int)

/-- The digit loop of `fmt`, base 10: `buf` is the part of the buffer already
written, `u` the value still to be written. -/
def fmtDigits : Nat → Nat → List UInt8 → List UInt8
  | 0, u, buf => UInt8.ofNat (48 + u) :: buf
  | fuel + 1, u, buf =>
    if u ≥ 10 then
      let next := u / 10
      fmtDigits fuel next (UInt8.ofNat (48 + u - next * 10) :: buf)
    else UInt8.ofNat (48 + u) :: buf

/-- Library model of the verb `%d` on a Go `int`: an optional minus sign and
the decimal digits of the magnitude. -/
def fmtInteger (n : Int) : GoString :=
  if n < 0 then 45 :: fmtDigits n.natAbs n.natAbs [] else fmtDigits n.natAbs n.natAbs []

/-- Library model of `fmt.Sprintf`, for the verbs `%s` and `%d` the program
uses: a verb takes the next operand, any other byte is copied. -/
def Sprintf : GoString → List Arg → GoString
  | [], _ => []
  | [b], _ => [b]
  | b :: c :: rest, args =>
    if b = 37 ∧ c = 115 then                 -- the verb %s
      match args with
      | Arg.string s :: args => s ++ Sprintf rest args
      | _ => b :: c :: Sprintf rest args
    else if b = 37 ∧ c = 100 then            -- the verb %d
      match args with
      | Arg.int n :: args => fmtInteger n ++ Sprintf rest args
      | _ => b :: c :: Sprintf rest args
    else b :: Sprintf (c :: rest) args

/-- The function `printResults` of the source, run on the sequence of values
it receives from `resultChannel`: the bytes written to standard output. -/
def printResults (received : List SearchResult) : GoString :=
  received.foldl
    (fun out res =>
      out ++ Sprintf (str "Found in %s:%d: %s\n")
        [Arg.string res.FilePath, Arg.int res.LineNumber, Arg.string res.LineContent])
    []

/-- Decimal notation of an integer: a minus sign for a negative number, then
the digits of `Nat.toDigits 10`. -/
def decimal (n : Int) : GoString :=
  (if n < 0 then [45] else []) ++ (Nat.toDigits 10 n.natAbs).map Char.toUInt8

/-! ## The pipeline

The goroutines `main` starts, as a transition system. Both channels are
unbuffered, so a send and the matching receive are one step. -/

/-- A scan worker between two steps. -/
inductive Worker where
  /-- Blocked in `range filePathChannel`, waiting for a path. -/
  | receiving
  /-- Inside the body of the loop for one path, with the results it has still
  to send on `resultChannel` for that file. -/
  | scanning (pending : List SearchResult)
  /-- The channel was closed and drained: the loop ended, `wg.Done` has run. -/
  | returned
deriving DecidableEq

/-- The goroutine `printResults` between two steps. -/
inductive Printer where
  /-- Blocked in `range resultChannel`. -/
  | receiving
  /-- A value was received; `fmt.Printf` has not run for it yet. -/
  | printing (res : SearchResult)
  /-- The channel was closed: the loop ended. -/
  | returned
deriving DecidableEq

/-- The goroutine `main` from `wg.Wait()` on. -/
inductive Coordinator where
  /-- Blocked in `wg.Wait()`. -/
  | waiting
  /-- The wait is over and `close(resultChannel)` has run. -/
  | closed
  /-- The function `main` has returned: the process is gone. -/
  | exited
deriving DecidableEq

/-- The state of the running pipeline. `walker` holds the paths `walkFiles` has
still to send (`none` once it has returned, its deferred `close` and `wg.Done`
done); `emitted` records every value handed over on `resultChannel`. -/
structure Pipeline where
  walker : Option (List GoString)
  workers : List Worker
  printer : Printer
  resultClosed : Bool
  wg : Nat
  main : Coordinator
  emitted : List SearchResult
  stdout : GoString
deriving DecidableEq

/-- One step of one goroutine (or of two that meet on a channel). -/
inductive Event where
  /-- The walker sends its next path and worker `i` receives it. -/
  | offer (i : Nat)
  /-- The walk is over: `close(filePathChannel)` and `wg.Done()`. -/
  | walkerReturn
  /-- Worker `i` sends its next result and the printer receives it. -/
  | emit (i : Nat)
  /-- Worker `i` has no more result for its file: `file.Close()`, next path. -/
  | fileDone (i : Nat)
  /-- Worker `i` finds the path channel closed: `wg.Done()`. -/
  | workerReturn (i : Nat)
  /-- The printer runs `fmt.Printf` on the value it holds. -/
  | print
  /-- The printer finds the result channel closed. -/
  | printerReturn
  /-- The call `wg.Wait()` returns and `main` runs `close(resultChannel)`. -/
  | mainClose
  /-- The function `main` returns. -/
  | mainReturn
deriving DecidableEq

/-- The pipeline `main` has set up: the walker with the paths it will send,
`n` workers, the printer, and the wait group at `1 + n`. -/
def Pipeline.init (paths : List GoString) (n : Nat) : Pipeline :=
  { walker := some paths, workers := List.replicate n Worker.receiving,
    printer := Printer.receiving, resultClosed := false, wg := 1 + n,
    main := Coordinator.waiting, emitted := [], stdout := [] }

/-- The pipeline `main` sets up for the flags `flags` on `numCPU` cores, over
the tree `root` found at the root path (for a non-empty pattern). -/
def Pipeline.ofMain (flags : Flags) (numCPU : Int) (root : Entry) : Pipeline :=
  Pipeline.init (walkFiles root (buildExtMap flags.extFilter)).sent
    (workersLaunched flags numCPU)

/-- The pipeline after the event `ev`, `none` when the goroutines concerned
cannot take that step. Nothing happens any more once `main` has returned. -/
def step (fs : FileSystem) (Match : Matcher) (pattern : GoString)
    (s : Pipeline) (ev : Event) : Option Pipeline :=
  if s.main = Coordinator.exited then none else
  match ev with
  | .offer i =>
    match s.walker, s.workers.get? i with
    | some (path :: rest), some Worker.receiving =>
      some { s with
        walker := some rest,
        workers := s.workers.set i
          (Worker.scanning (searchWorker fs Match pattern [path]).results) }
    | _, _ => none
  | .walkerReturn =>
    match s.walker with
    | some [] => some { s with walker := none, wg := s.wg - 1 }
    | _ => none
  | .emit i =>
    match s.workers.get? i, s.printer with
    | some (Worker.scanning (res :: rest)), Printer.receiving =>
      some { s with
        workers := s.workers.set i (Worker.scanning rest),
        printer := Printer.printing res,
        emitted := s.emitted ++ [res] }
    | _, _ => none
  | .fileDone i =>
    match s.workers.get? i with
    | some (Worker.scanning []) => some { s with workers := s.workers.set i Worker.receiving }
    | _ => none
  | .workerReturn i =>
    match s.workers.get? i, s.walker with
    | some Worker.receiving, none =>
      some { s with workers := s.workers.set i Worker.returned, wg := s.wg - 1 }
    | _, _ => none
  | .print =>
    match s.printer with
    | Printer.printing res =>
      some { s with printer := Printer.receiving, stdout := s.stdout ++ printResults [res] }
    | _ => none
  | .printerReturn =>
    match s.printer with
    | Printer.receiving =>
      if s.resultClosed then some { s with printer := Printer.returned } else none
    | _ => none
  | .mainClose =>
    if s.main = Coordinator.waiting ∧ s.wg = 0 then
      some { s with main := Coordinator.closed, resultClosed := true }
    else none
  | .mainReturn =>
    if s.main = Coordinator.closed then some { s with main := Coordinator.exited } else none

/-- The pipeline after a sequence of events. -/
def run (fs : FileSystem) (Match : Matcher) (pattern : GoString) :
    Pipeline → List Event → Option Pipeline
  | s, [] => some s
  | s, ev :: evs =>
    match step fs Match pattern s ev with
    | none => none
    | some s1 => run fs Match pattern s1 evs

/-- The files of the scenario of the specification. -/
def scenarioFiles : FileSystem := fun path =>
  if path = str "a.txt" then some [str "hello world", str "foo bar"]
  else if path = str "b.go" then some [str "hello there"]
  else none

/-- A matcher for examples: the bytes of `pattern` occur in `line`, in order. -/
def subsequence : Matcher
  | [], _ => true
  | _ :: _, [] => false
  | p :: ps, l :: ls => if p = l then subsequence ps ls else subsequence (p :: ps) ls

/-- The non-empty pieces of `s` when it is cut at every byte that `isSep`
accepts (the separators themselves are dropped) and nowhere else: the reading
of "comma-separated" for the value of `-ext`. -/
def nonEmptyPieces (isSep : UInt8 → Bool) (s : GoString) : List GoString :=
  (List.splitOnP isSep s).filter (fun piece => piece ≠ [])

/-- The lines of a file with the bytes `data`: the pieces between line feeds
(byte 10), without an empty piece after the last line feed, each without a
trailing carriage return. -/
def fileLines (data : GoString) : List GoString :=
  let pieces := List.splitOnP (fun b => b == 10) data
  (if pieces.getLast? = some [] then pieces.dropLast else pieces).map dropCR

/-- A line of 64 KiB: 65536 times the letter `a`. -/
@[irreducible]
def longLine : GoString := List.replicate 65536 97

/-- The bytes of a file of three lines: `hello`, the long line, `hello again`. -/
def longLineFile : GoString :=
  str "hello" ++ 10 :: (longLine ++ 10 :: (str "hello again" ++ [10]))

/-- A disk that holds the file of three lines at `a.txt` and nothing else. -/
def longLineDisk : Disk := fun path =>
  if path = str "a.txt" then some longLineFile else none

/-- A disk that holds at `a.txt` a file of three short lines, the first ended
by a carriage return and a line feed, the last not ended at all. -/
def shortLineDisk : Disk := fun path =>
  if path = str "a.txt" then some (str "hello world\r\nfoo bar\nhello") else none

/-- The results expected for one readable file with the lines `lines`: the
record `(path, i, l_i)` for each position `i`, counted from 1, whose line the
matcher accepts, in the order of the lines. -/
def matchingLines (Match : Matcher) (pattern path : GoString) (lines : List GoString) :
    List SearchResult :=
  ((lines.enumFrom 1).filter (fun il => Match pattern il.2)).map
    (fun il => ⟨path, (il.1 : Int), il.2⟩)

/-- The results expected for one path: none when it cannot be opened. -/
def fileResults (fs : FileSystem) (Match : Matcher) (pattern path : GoString) :
    List SearchResult :=
  match fs path with
  | none => []
  | some lines => matchingLines Match pattern path lines

/-- The results a worker has still to send for the file it is in. -/
def Worker.pending : Worker → List SearchResult
  | .scanning pending => pending
  | _ => []

/-- The results still to come from the paths the walker has not sent yet. -/
def walkerRest (fs : FileSystem) (Match : Matcher) (pattern : GoString) (s : Pipeline) :
    Multiset SearchResult :=
  match s.walker with
  | some paths => ((searchWorker fs Match pattern paths).results : Multiset SearchResult)
  | none => 0

/-- The results the workers have still to send for the files they are in. -/
def pendingSum (workers : List Worker) : Multiset SearchResult :=
  (workers.map (fun w => (w.pending : Multiset SearchResult))).sum

/-- Whether a worker has not returned yet. -/
def Worker.isLive : Worker → Bool
  | .returned => false
  | _ => true

/-- The number of goroutines registered with the wait group that have not
called `wg.Done` yet. -/
def live (s : Pipeline) : Nat :=
  (if s.walker.isSome then 1 else 0) + s.workers.countP Worker.isLive

/-- The invariant of the pipeline: every result of the search is emitted or
still to come, once; while `main` waits the wait group counts the live
goroutines; and once the wait is over the walker and all workers have
returned. -/
def Invariant (fs : FileSystem) (Match : Matcher) (pattern : GoString)
    (total : Multiset SearchResult) (s : Pipeline) : Prop :=
  ((s.emitted : Multiset SearchResult) + walkerRest fs Match pattern s + pendingSum s.workers
    = total) ∧
  (s.main = Coordinator.waiting → s.wg = live s) ∧
  (s.main ≠ Coordinator.waiting → s.walker = none ∧ ∀ w ∈ s.workers, w = Worker.returned)

/-- The steps by which worker 0 hands over `results` one by one, the printer
printing each at once. -/
def emitSchedule : List SearchResult → List Event
  | [] => []
  | _ :: results => Event.emit 0 :: Event.print :: emitSchedule results

/-- The steps by which worker 0 takes one path whose file yields `results`. -/
def fileSchedule (results : List SearchResult) : List Event :=
  Event.offer 0 :: (emitSchedule results ++ [Event.fileDone 0])

/-- A complete run of a pipeline of `n` workers in which worker 0 takes every
path: then the walker returns, the workers return one after the other, and
`main` closes the result queue and returns. -/
def sequentialSchedule (fs : FileSystem) (Match : Matcher) (pattern : GoString)
    (paths : List GoString) (n : Nat) : List Event :=
  paths.flatMap (fun path => fileSchedule (searchWorker fs Match pattern [path]).results)
    ++ [Event.walkerReturn] ++ (List.range' 0 n).map Event.workerReturn
    ++ [Event.mainClose, Event.mainReturn]

/-! # Theorems -/

/-! ## The extension set -/

theorem str_comma : str "," = [44] := by decide

theorem byteToString_eq_comma (b : UInt8) : byteToString b = [44] ↔ b = 44 := by
  unfold byteToString
  split
  · simp
  · rename_i h
    simp only [List.cons.injEq, List.cons_ne_nil, and_false, false_iff]
    rintro rfl
    exact h (by decide)

theorem splitCommaLoop_eq (s pre cur rest : GoString) (result : List GoString)
    (hs : s = pre ++ cur ++ rest) :
    splitCommaLoop s [44] rest (pre.length + cur.length) pre.length result
      = result ++ List.splitOnP.go (fun b => b == 44) rest cur.reverse := by
  induction rest generalizing pre cur result with
  | nil =>
    simp [splitCommaLoop, List.splitOnP.go, sliceFrom, hs]
  | cons b rest ih =>
    rw [splitCommaLoop, List.splitOnP.go]
    by_cases hb : b = 44
    · subst hb
      have h1 := ih (pre ++ cur ++ [44]) [] (result ++ [slice s pre.length (pre.length + cur.length)])
        (by simp [hs])
      have h2 : slice s pre.length (pre.length + cur.length) = cur := by
        simp [slice, hs]
      simp only [List.length_append, List.length_singleton, List.length_nil, Nat.add_zero] at h1
      rw [h2] at h1 ⊢
      simpa [byteToString_eq_comma] using h1
    · have h1 := ih pre (cur ++ [b]) result (by simp [hs])
      simp only [List.length_append, List.length_singleton, ← Nat.add_assoc] at h1
      simp [byteToString_eq_comma, hb, h1]

theorem splitComma_eq (s : GoString) :
    splitComma s (str ",") = List.splitOnP (fun b => b == 44) s := by
  have h := splitCommaLoop_eq s [] [] s [] (by simp)
  simpa [splitComma, str_comma, List.splitOnP] using h

theorem foldl_keep_nonempty (l result : List GoString) :
    l.foldl (fun result sub =>
        let trimmed := trimSpace sub
        if trimmed ≠ [] then result ++ [trimmed] else result) result
      = result ++ l.filter (fun piece => piece ≠ []) := by
  induction l generalizing result with
  | nil => simp
  | cons a l ih =>
    rw [List.foldl_cons, ih]
    by_cases ha : a = []
    · simp [ha, trimSpace]
    · simp [ha, trimSpace]

theorem splitAndTrim_eq (s : GoString) :
    splitAndTrim s (str ",")
      = (SplitList s).flatMap
          (fun part => (List.splitOnP (fun b => b == 44) part).filter (fun piece => piece ≠ [])) := by
  unfold splitAndTrim
  generalize SplitList s = parts
  suffices h : ∀ (result : List GoString),
      parts.foldl (fun result part =>
        (splitComma part (str ",")).foldl (fun result sub =>
          let trimmed := trimSpace sub
          if trimmed ≠ [] then result ++ [trimmed] else result) result) result
      = result ++ parts.flatMap
          (fun part => (List.splitOnP (fun b => b == 44) part).filter (fun piece => piece ≠ [])) by
    simpa using h []
  induction parts with
  | nil => simp
  | cons a parts ih =>
    intro result
    rw [List.foldl_cons, foldl_keep_nonempty, ih, splitComma_eq]
    simp

theorem splitOnP_flatMap_splitOnP (p q : UInt8 → Bool) (s : GoString) :
    (List.splitOnP p s).flatMap (List.splitOnP q) = List.splitOnP (fun b => p b || q b) s := by
  induction s with
  | nil => simp [List.splitOnP_nil]
  | cons b s ih =>
    rw [List.splitOnP_cons, List.splitOnP_cons]
    by_cases hp : p b = true
    · simp [hp, ih, List.splitOnP_nil]
    · obtain ⟨h, t, ht⟩ := List.exists_cons_of_ne_nil (List.splitOnP_ne_nil p s)
      rw [ht] at ih
      simp only [hp, if_false, ht, List.modifyHead_cons, List.flatMap_cons, Bool.false_or]
      by_cases hq : q b = true
      · simp [hq, ← ih]
      · obtain ⟨h2, t2, ht2⟩ := List.exists_cons_of_ne_nil (List.splitOnP_ne_nil q h)
        simp [hq, ← ih, ht2]

theorem mem_foldl_set (l : List GoString) (m : ExtMap) (x : GoString) :
    x ∈ l.foldl ExtMap.set m ↔ x ∈ m ∨ x ∈ l := by
  induction l generalizing m with
  | nil => simp
  | cons a l ih =>
    rw [List.foldl_cons, ih]
    unfold ExtMap.set
    by_cases ha : a ∈ m
    · simp only [ha, if_true, List.mem_cons]
      constructor
      · rintro (h | h)
        · exact Or.inl h
        · exact Or.inr (Or.inr h)
      · rintro (h | h | h)
        · exact Or.inl h
        · exact Or.inl (h ▸ ha)
        · exact Or.inr h
    · simp only [ha, if_false, List.mem_append, List.mem_singleton, List.mem_cons]
      tauto

theorem nodup_foldl_set (l : List GoString) (m : ExtMap) (hm : m.Nodup) :
    (l.foldl ExtMap.set m).Nodup := by
  induction l generalizing m with
  | nil => simpa using hm
  | cons a l ih =>
    rw [List.foldl_cons]
    apply ih
    unfold ExtMap.set
    by_cases ha : a ∈ m
    · simpa [ha] using hm
    · simp only [ha, if_false]
      exact List.Nodup.append hm (List.nodup_singleton a) (by simpa using ha)

theorem mem_buildExtMap (s x : GoString) :
    x ∈ buildExtMap s ↔ x ∈ nonEmptyPieces (fun b => b == 58 || b == 44) s := by
  unfold buildExtMap nonEmptyPieces
  by_cases hs : s = []
  · subst hs
    simp [List.splitOnP_nil]
  · simp only [ne_eq, hs, not_false_eq_true, if_true]
    rw [mem_foldl_set, splitAndTrim_eq, SplitList, if_neg hs,
      ← splitOnP_flatMap_splitOnP (fun b => b == 58) (fun b => b == 44) s]
    simp only [ListSeparator, List.mem_flatMap, List.mem_filter, List.not_mem_nil, false_or,
      decide_eq_true_eq]
    constructor
    · rintro ⟨a, ha, hx, hne⟩
      exact ⟨⟨a, ha, hx⟩, hne⟩
    · rintro ⟨⟨a, ha, hx⟩, hne⟩
      exact ⟨a, ha, hx, hne⟩

theorem buildExtMap_single (s : GoString) (hs : s ≠ [])
    (hsep : ∀ b ∈ s, b ≠ 44 ∧ b ≠ 58) : buildExtMap s = [s] := by
  have h58 : List.splitOnP (fun b => b == 58) s = [s] :=
    List.splitOnP_eq_single _ _ (by intro b hb; simpa using (hsep b hb).2)
  have h44 : List.splitOnP (fun b => b == 44) s = [s] :=
    List.splitOnP_eq_single _ _ (by intro b hb; simpa using (hsep b hb).1)
  unfold buildExtMap
  rw [if_pos hs, splitAndTrim_eq, SplitList, if_neg hs]
  simp [ListSeparator, h58, h44, hs, ExtMap.set]

/-- C5 on the code: for the value `.go:.txt` of `-ext`, which holds a colon and
no comma, `main` builds the two-element set of `.go` and `.txt`, whereas
cutting at commas only, as the usage text of the flag says, gives the single
piece `.go:.txt`. With `-ext .b:c` the walker leaves out the file `a.b:c`,
whose extension is `.b:c`, and offers `x.b`. -/
theorem ext_set_cut_at_colon :
    buildExtMap (str ".go:.txt") = [str ".go", str ".txt"] ∧
    nonEmptyPieces (fun b => b == 44) (str ".go:.txt") = [str ".go:.txt"] ∧
    ¬ (∀ x, x ∈ buildExtMap (str ".go:.txt") ↔
        x ∈ nonEmptyPieces (fun b => b == 44) (str ".go:.txt")) ∧
    Ext (str "a.b:c") = str ".b:c" ∧
    (walkFiles colonTree (buildExtMap (str ".b:c"))).sent = [str "x.b"] ∧
    (walkFiles colonTree (nonEmptyPieces (fun b => b == 44) (str ".b:c"))).sent
      = [str "a.b:c"] := by
  refine ⟨by decide, by decide, ?_, by decide, by decide, by decide⟩
  intro h
  have h1 : str ".go" ∈ nonEmptyPieces (fun b => b == 44) (str ".go:.txt") :=
    (h (str ".go")).1 (by decide)
  revert h1
  decide

/-- What `main` builds from a value `s` of `-ext`: exactly the set of non-empty
pieces obtained by cutting `s` at every comma (byte 44) and every colon (byte
58, the list separator `filepath.SplitList` cuts at on Unix) and at no other
byte, each piece kept verbatim and held once; the empty string gives the
empty set, and a non-empty string without comma and colon gives the
one-element set holding the whole string. -/
theorem ext_set_pieces (s : GoString) :
    (∀ x, x ∈ buildExtMap s ↔ x ∈ nonEmptyPieces (fun b => b == 58 || b == 44) s) ∧
    (buildExtMap s).Nodup ∧
    buildExtMap [] = [] ∧
    (s ≠ [] → (∀ b ∈ s, b ≠ 44 ∧ b ≠ 58) → buildExtMap s = [s]) := by
  refine ⟨fun x => mem_buildExtMap s x, ?_, by decide, buildExtMap_single s⟩
  unfold buildExtMap
  split
  · exact nodup_foldl_set _ _ List.nodup_nil
  · exact List.nodup_nil

/-- The extension set at the values `.go, .txt,,.go` and `.go`: blanks are
kept, the empty piece and the repetition are dropped. -/
theorem ext_set_pieces_witness :
    buildExtMap (str ".go, .txt,,.go") = [str ".go", str " .txt"] ∧
    (∀ x, x ∈ buildExtMap (str ".go, .txt,,.go") ↔
      x ∈ nonEmptyPieces (fun b => b == 58 || b == 44) (str ".go, .txt,,.go")) ∧
    buildExtMap (str ".go") = [str ".go"] :=
  ⟨by decide, (ext_set_pieces (str ".go, .txt,,.go")).1,
    (ext_set_pieces (str ".go")).2.2.2 (by decide) (by decide)⟩

/-! ## `main` -/

theorem countP_launchLoop (pattern : GoString) (numWorkers : Int) (fuel : Nat) (i : Int) :
    (launchLoop pattern numWorkers fuel i).countP Action.isWorker
      = min fuel (numWorkers - i).toNat := by
  induction fuel generalizing i with
  | zero => simp [launchLoop]
  | succ fuel ih =>
    rw [launchLoop]
    by_cases h : i < numWorkers
    · have h1 : List.countP Action.isWorker [Action.wgAdd, Action.goSearchWorker pattern] = 1 := rfl
      rw [if_pos h, List.countP_append, ih, h1]
      omega
    · simp only [h, if_false, List.countP_nil]
      omega

theorem mem_launchLoop (pattern : GoString) (numWorkers : Int) (fuel : Nat) (i : Int)
    (a : Action) (h : a ∈ launchLoop pattern numWorkers fuel i) :
    a = Action.wgAdd ∨ a = Action.goSearchWorker pattern := by
  induction fuel generalizing i with
  | zero => simp [launchLoop] at h
  | succ fuel ih =>
    rw [launchLoop] at h
    split at h
    · simp only [List.mem_append, List.mem_cons, List.mem_singleton, List.not_mem_nil,
        or_false] at h
      rcases h with (h | h) | h
      · exact Or.inl h
      · exact Or.inr h
      · exact ih _ h
    · simp at h

theorem workersLaunched_eq (flags : Flags) (numCPU : Int) (h : flags.pattern ≠ []) :
    workersLaunched flags numCPU
      = (if flags.numWorkers ≤ 0 then Int.tdiv numCPU 2 else flags.numWorkers).toNat := by
  unfold workersLaunched main
  simp only [h, if_false, List.countP_append, countP_launchLoop]
  by_cases hw : flags.numWorkers ≤ 0
  · simp [hw, List.countP_cons, Action.isWorker]
  · simp [hw, List.countP_cons, Action.isWorker]

theorem launchLoop_eq (pattern : GoString) (numWorkers : Int) (fuel : Nat) (i : Int) :
    launchLoop pattern numWorkers fuel i
      = (List.replicate (min fuel (numWorkers - i).toNat)
          [Action.wgAdd, Action.goSearchWorker pattern]).flatten := by
  induction fuel generalizing i with
  | zero => simp [launchLoop]
  | succ fuel ih =>
    rw [launchLoop]
    by_cases h : i < numWorkers
    · have hn : min (fuel + 1) (numWorkers - i).toNat
          = min fuel (numWorkers - (i + 1)).toNat + 1 := by omega
      rw [if_pos h, ih, hn, List.replicate_succ, List.flatten_cons]
    · have hn : min (fuel + 1) (numWorkers - i).toNat = 0 := by omega
      rw [if_neg h, hn]
      rfl

theorem main_eq (flags : Flags) (numCPU : Int) (h : flags.pattern ≠ []) :
    main flags numCPU
      = (if flags.numWorkers ≤ 0 then [Action.println workersWarning] else [])
        ++ [Action.makeFilePathChannel, Action.makeResultChannel, Action.wgAdd,
            Action.goWalkFiles flags.rootPath (buildExtMap flags.extFilter)]
        ++ (List.replicate (workersLaunched flags numCPU)
            [Action.wgAdd, Action.goSearchWorker flags.pattern]).flatten
        ++ [Action.goPrintResults, Action.wgWait, Action.closeResultChannel] := by
  rw [workersLaunched_eq flags numCPU h]
  unfold main
  simp only [h, if_false, launchLoop_eq]
  have hn : ∀ n : Int, min n.toNat (n - 0).toNat = n.toNat := by
    intro n
    omega
  rw [hn]

/-- C3: with an empty pattern `main` prints the usage message and does nothing
else (no queue is made, no walker, worker or printer is started), whatever the
other flags. With a non-empty pattern the search is started: the effects of
`main` are, in this order, the warning when the worker count is not positive,
the making of both queues, the start of the walker on the root path with the
extension set, the start of the validated number of workers on the pattern,
the start of the printer, the wait and the closing of the result queue; at
least one worker is started when the worker count is positive or there are
two cores or more, and the usage message is not printed. -/
theorem main_usage_or_search (flags : Flags) (numCPU : Int) :
    (flags.pattern = [] →
      main flags numCPU = [Action.println usageMessage] ∧
      (main flags numCPU).all
        (fun a => !a.isMake && !a.isWalker && !a.isWorker && a != Action.goPrintResults) = true ∧
      workersLaunched flags numCPU = 0) ∧
    (flags.pattern ≠ [] →
      main flags numCPU
        = (if flags.numWorkers ≤ 0 then [Action.println workersWarning] else [])
          ++ [Action.makeFilePathChannel, Action.makeResultChannel, Action.wgAdd,
              Action.goWalkFiles flags.rootPath (buildExtMap flags.extFilter)]
          ++ (List.replicate (workersLaunched flags numCPU)
              [Action.wgAdd, Action.goSearchWorker flags.pattern]).flatten
          ++ [Action.goPrintResults, Action.wgWait, Action.closeResultChannel] ∧
      workersLaunched flags numCPU
        = (if flags.numWorkers ≤ 0 then Int.tdiv numCPU 2 else flags.numWorkers).toNat ∧
      (0 < flags.numWorkers ∨ 2 ≤ numCPU →
        Action.goSearchWorker flags.pattern ∈ main flags numCPU) ∧
      Action.makeFilePathChannel ∈ main flags numCPU ∧
      Action.makeResultChannel ∈ main flags numCPU ∧
      Action.goWalkFiles flags.rootPath (buildExtMap flags.extFilter) ∈ main flags numCPU ∧
      Action.goPrintResults ∈ main flags numCPU ∧
      Action.wgWait ∈ main flags numCPU ∧
      Action.closeResultChannel ∈ main flags numCPU ∧
      Action.println usageMessage ∉ main flags numCPU) := by
  constructor
  · intro h
    have hm : main flags numCPU = [Action.println usageMessage] := by
      unfold main
      simp [h]
    refine ⟨hm, ?_, ?_⟩
    · rw [hm]; decide
    · unfold workersLaunched
      rw [hm]; decide
  · intro h
    have hcount := workersLaunched_eq flags numCPU h
    refine ⟨main_eq flags numCPU h, hcount, ?_, ?_⟩
    · intro hw
      have hpos : 0 < workersLaunched flags numCPU := by
        rw [hcount]
        by_cases h0 : flags.numWorkers ≤ 0
        · have h2 : 2 ≤ numCPU := by omega
          have h3 : 1 ≤ Int.tdiv numCPU 2 := by
            rw [Int.tdiv_eq_ediv (by omega) (by decide)]
            omega
          simp only [h0, if_true]
          omega
        · simp only [h0, if_false]
          omega
      obtain ⟨n, hn⟩ : ∃ n, workersLaunched flags numCPU = n + 1 := ⟨_, (Nat.succ_pred_eq_of_pos hpos).symm⟩
      rw [main_eq flags numCPU h, hn, List.replicate_succ, List.flatten_cons]
      simp
    · unfold main
      simp only [h, if_false]
      refine ⟨?_, ?_, ?_, ?_, ?_, ?_, ?_⟩
      · simp
      · simp
      · simp
      · simp
      · simp
      · simp
      · intro hmem
        have hne : usageMessage ≠ workersWarning := by decide
        simp only [List.mem_append, List.mem_cons, List.mem_singleton, List.not_mem_nil,
          or_false] at hmem
        rcases hmem with ((hmem | hmem) | hmem) | hmem
        · split at hmem
          · simp only [List.mem_singleton, Action.println.injEq] at hmem
            exact hne hmem
          · simp at hmem
        · simp at hmem
        · rcases mem_launchLoop _ _ _ _ _ hmem with h1 | h1 <;> simp at h1
        · simp at hmem

/-- C3 at the flags `-path . -workers 2` on 8 cores: without a pattern the
usage message is all `main` does; with the pattern `hello` the queues are
made, the walker is started on `.` with the empty extension set, two workers
are started on `hello`, then the printer, and `main` waits and closes. -/
theorem main_usage_or_search_witness :
    main ⟨str ".", [], 2, []⟩ 8 = [Action.println usageMessage] ∧
    main ⟨str ".", str "hello", 2, []⟩ 8
      = [Action.makeFilePathChannel, Action.makeResultChannel, Action.wgAdd,
         Action.goWalkFiles (str ".") [],
         Action.wgAdd, Action.goSearchWorker (str "hello"),
         Action.wgAdd, Action.goSearchWorker (str "hello"),
         Action.goPrintResults, Action.wgWait, Action.closeResultChannel] ∧
    Action.goSearchWorker (str "hello") ∈ main ⟨str ".", str "hello", 2, []⟩ 8 :=
  ⟨((main_usage_or_search ⟨str ".", [], 2, []⟩ 8).1 rfl).1,
   by decide,
   ((main_usage_or_search ⟨str ".", str "hello", 2, []⟩ 8).2 (by decide)).2.2.1
     (Or.inl (by decide))⟩

/-- C4 on the code: with `-workers 0` on 8 cores `main` prints the warning that
announces the default number of CPU cores and then launches 4 workers, half
of the 8 the claim states; in general a worker count `-k ≤ 0` gives
`numCPU / 2` workers, and a worker count `k + 1 > 0` gives `k + 1` workers. -/
theorem main_launches_half_the_cores :
    Action.println workersWarning ∈ main ⟨str ".", str "hello", 0, []⟩ 8 ∧
    workersLaunched ⟨str ".", str "hello", 0, []⟩ 8 = 4 ∧
    workersLaunched ⟨str ".", str "hello", 0, []⟩ 8 ≠ 8 ∧
    (∀ (rootPath extFilter rest : GoString) (b : UInt8) (k : Nat) (numCPU : Int),
      workersLaunched ⟨rootPath, b :: rest, -(k : Int), extFilter⟩ numCPU
        = (Int.tdiv numCPU 2).toNat) ∧
    ∀ (rootPath extFilter rest : GoString) (b : UInt8) (k : Nat) (numCPU : Int),
      workersLaunched ⟨rootPath, b :: rest, (k : Int) + 1, extFilter⟩ numCPU = k + 1 := by
  refine ⟨by decide, by decide, by decide, ?_, ?_⟩
  · intro rootPath extFilter rest b k numCPU
    rw [workersLaunched_eq _ _ (List.cons_ne_nil b rest)]
    have hk : -(k : Int) ≤ 0 := by omega
    simp [hk]
  · intro rootPath extFilter rest b k numCPU
    rw [workersLaunched_eq _ _ (List.cons_ne_nil b rest)]
    have hk : ¬ ((k : Int) + 1 ≤ 0) := by omega
    simp only [hk, if_false]
    omega

/-- C10 on the code: with `-workers 0` on a single core (with any worker count
`-k ≤ 0`) `main` launches no worker at all, and a pipeline without workers
whose walker has a path to send is stuck: no goroutine can take a step, so
`wg.Wait()` never returns. So it is for the tree of the scenario. -/
theorem main_launches_no_worker_on_one_core :
    workersLaunched ⟨str ".", str "hello", 0, []⟩ 1 = 0 ∧
    (∀ (rootPath extFilter rest : GoString) (b : UInt8) (k : Nat),
      workersLaunched ⟨rootPath, b :: rest, -(k : Int), extFilter⟩ 1 = 0) ∧
    (∀ (fs : FileSystem) (Match : Matcher) (pattern path : GoString) (rest : List GoString)
      (ev : Event), step fs Match pattern (Pipeline.init (path :: rest) 0) ev = none) ∧
    Pipeline.ofMain ⟨str ".", str "hello", 0, []⟩ 1 scenarioTree
      = Pipeline.init [str "a.txt", str "b.go"] 0 := by
  refine ⟨by decide, ?_, ?_, by decide⟩
  · intro rootPath extFilter rest b k
    rw [workersLaunched_eq _ _ (List.cons_ne_nil b rest)]
    have hk : -(k : Int) ≤ 0 := by omega
    simp only [hk, if_true]
    decide
  · intro fs Match pattern path rest ev
    cases ev <;> simp [step, Pipeline.init]

/-- C8 on the code: the flags `-path . -pattern hello -workers 1`, a root that
holds the file `a.txt` of the scenario. The worker hands its single result to
the printer, the walker and the worker return, `wg.Wait()` returns, `main`
closes the result queue and returns: the process has exited, one result was
emitted, and nothing has been written to standard output, because `main`
never waits for `printResults`. -/
theorem main_returns_before_last_print :
    run scenarioFiles subsequence (str "hello")
        (Pipeline.ofMain ⟨str ".", str "hello", 1, []⟩ 8 singleFileTree)
        [Event.offer 0, Event.emit 0, Event.fileDone 0, Event.walkerReturn,
         Event.workerReturn 0, Event.mainClose, Event.mainReturn]
      = some
        { walker := none, workers := [Worker.returned],
          printer := Printer.printing ⟨str "a.txt", 1, str "hello world"⟩,
          resultClosed := true, wg := 0, main := Coordinator.exited,
          emitted := [⟨str "a.txt", 1, str "hello world"⟩],
          stdout := [] } := by
  decide

/-! ## `walkFiles` -/

theorem WalkerState.after_nil (st : WalkerState) (extMap : ExtMap) :
    st.after extMap [] [] = st := by
  simp [WalkerState.after]

theorem WalkerState.after_after (st : WalkerState) (extMap : ExtMap)
    (f1 e1 f2 e2 : List GoString) :
    (st.after extMap f1 e1).after extMap f2 e2 = st.after extMap (f1 ++ f2) (e1 ++ e2) := by
  simp [WalkerState.after]

theorem walkFn_failure (extMap : ExtMap) (st : WalkerState) (path : GoString)
    (info : Option FileInfo) (err : GoError) :
    walkFn extMap st path info (some err) = (st.after extMap [] [path], none) := by
  simp [walkFn, WalkerState.after]

theorem walkFn_dir (extMap : ExtMap) (st : WalkerState) (path : GoString) :
    walkFn extMap st path (some ⟨true⟩) none = (st, none) := by
  simp [walkFn]

theorem walkFn_file (extMap : ExtMap) (st : WalkerState) (path : GoString) :
    walkFn extMap st path (some ⟨false⟩) none = (st.after extMap [path] [], none) := by
  unfold walkFn WalkerState.after passes ExtMap.len ExtMap.has
  cases extMap with
  | nil => simp
  | cons a m =>
    by_cases h : Ext path ∈ a :: m
    · have h1 := h
      rw [List.mem_cons] at h1
      simp [h, h1, List.filter_cons]
    · have h1 := h
      rw [List.mem_cons] at h1
      simp [h, h1, List.filter_cons]

mutual
theorem walk_walkFn (extMap : ExtMap) : ∀ (e : Entry) (st : WalkerState),
    walk (walkFn extMap) e st = (st.after extMap e.files e.failures, none)
  | .noinfo path, st => by
    simp [walk, walkFn_failure, Entry.files, Entry.failures]
  | .file path, st => by
    simp [walk, walkFn_file, Entry.files, Entry.failures]
  | .unlistable path, st => by
    simp [walk, walkFn_failure, Entry.files, Entry.failures]
  | .dir path names, st => by
    simp [walk, walkFn_dir, Entry.files, Entry.failures, walkNames_walkFn extMap names st]
theorem walkNames_walkFn (extMap : ExtMap) : ∀ (es : Entries) (st : WalkerState),
    walkNames (walkFn extMap) es st = (st.after extMap es.files es.failures, none)
  | .nil, st => by
    simp [walkNames, Entries.files, Entries.failures, WalkerState.after_nil]
  | .cons e rest, st => by
    have h := walk_walkFn extMap e st
    have h2 := walkNames_walkFn extMap rest (st.after extMap e.files e.failures)
    cases e <;>
      simp [walkNames, walk, walkFn_failure, h, h2, Entries.files, Entries.failures,
        Entry.files, Entry.failures, WalkerState.after_after] at h h2 ⊢ <;>
      simp [h, h2, WalkerState.after_after]
end

theorem count_eq_one_of_nodup {α : Type} [BEq α] [LawfulBEq α] (l : List α) (a : α)
    (hnd : l.Nodup) (ha : a ∈ l) : l.count a = 1 := by
  induction l with
  | nil => simp at ha
  | cons b l ih =>
    rw [List.nodup_cons] at hnd
    rw [List.count_cons]
    rcases List.mem_cons.1 ha with h | h
    · subst h
      simp [List.count_eq_zero_of_not_mem hnd.1]
    · have hne : ¬ (b == a) = true := by
        intro hb
        have hb := eq_of_beq hb
        subst hb
        exact hnd.1 h
      simp [ih hnd.2 h, hne]

theorem walkFiles_eq (T : Entry) (E : ExtMap) :
    walkFiles T E
      = { sent := T.files.filter (fun f => decide (passes E f)), stderr := T.failures,
          stdout := [], closed := true, done := true } := by
  have h : Walk (walkFn E) T WalkerState.init
      = (WalkerState.init.after E T.files T.failures, none) := by
    unfold Walk
    cases T <;> simp [walk_walkFn, walkFn_failure, Entry.files, Entry.failures]
  unfold walkFiles
  rw [h]
  simp [WalkerState.after, WalkerState.init]

/-- C1: for every directory tree `T` and every extension set `E`, the sequence
of paths `walkFiles` sends on the path queue is the sequence of the
non-directory entries of `T`, in walk order, that pass the filter (`E` is
empty, or `filepath.Ext` of the path is a member of `E`, by equality of byte
strings): every such entry is sent as often as it occurs in the tree, once
when the paths of the tree are distinct, and no other path is sent. The walker
then closes the queue and reports completion. -/
theorem walkFiles_offers_filtered_files (T : Entry) (E : ExtMap) :
    (walkFiles T E).sent = T.files.filter (fun f => decide (passes E f)) ∧
    (∀ f, f ∈ (walkFiles T E).sent ↔ f ∈ T.files ∧ (E = [] ∨ ∃ e ∈ E, e = Ext f)) ∧
    (∀ f, (walkFiles T E).sent.count f = if passes E f then T.files.count f else 0) ∧
    (T.files.Nodup → ∀ f, f ∈ T.files → passes E f → (walkFiles T E).sent.count f = 1) ∧
    (walkFiles T E).stderr = T.failures ∧
    (walkFiles T E).closed = true ∧ (walkFiles T E).done = true := by
  rw [walkFiles_eq]
  have hcount : ∀ f, (T.files.filter (fun f => decide (passes E f))).count f
      = if passes E f then T.files.count f else 0 := by
    intro f
    by_cases hf : passes E f
    · rw [if_pos hf]
      exact List.count_filter (by simpa using hf)
    · rw [if_neg hf]
      exact List.count_eq_zero_of_not_mem (by simp [List.mem_filter, hf])
  refine ⟨rfl, ?_, hcount, ?_, rfl, rfl, rfl⟩
  · intro f
    simp [List.mem_filter, passes]
  · intro hnd f hf hp
    show (T.files.filter (fun f => decide (passes E f))).count f = 1
    rw [hcount f, if_pos hp]
    exact count_eq_one_of_nodup _ _ hnd hf

/-- C1 on the tree of the scenario with the extension set of `.go`: only `b.go`
is sent, once; with `.GO` instead nothing is sent; on a tree with failures the
files that can be reached are sent and the failures are reported. -/
theorem walkFiles_offers_filtered_files_witness :
    (walkFiles scenarioTree [str ".go"]).sent = [str "b.go"] ∧
    (walkFiles scenarioTree [str ".go"]).sent.count (str "b.go") = 1 ∧
    (walkFiles scenarioTree [str ".GO"]).sent = [] ∧
    walkFiles damagedTree [str ".go", str ".txt"]
      = ⟨[str "a.txt", str "src/b.go"], [str "gone", str "locked"], [], true, true⟩ :=
  ⟨by decide,
   (walkFiles_offers_filtered_files scenarioTree [str ".go"]).2.2.2.1 (by decide) (str "b.go")
     (by decide) (by decide),
   by decide, by decide⟩

/-! ## `searchWorker` -/

theorem scanLoop_eq (Match : Matcher) (pattern path : GoString) (lines : List GoString)
    (k : Nat) (st : WorkerState) :
    scanLoop Match pattern path lines (k : Int) st
      = { st with
          results := st.results ++
            List.map (fun il => ⟨path, (il.1 : Int), il.2⟩)
              ((lines.enumFrom (k + 1)).filter (fun il => Match pattern il.2)) } := by
  induction lines generalizing k st with
  | nil => simp [scanLoop]
  | cons line rest ih =>
    have ih1 := ih (k + 1)
    rw [Nat.cast_succ] at ih1
    rw [scanLoop]
    by_cases hm : Match pattern line = true
    · simp [hm, ih1, List.filter_cons]
    · simp [hm, ih1, List.filter_cons]

theorem searchLoop_eq (fs : FileSystem) (Match : Matcher) (pattern : GoString)
    (paths : List GoString) (st : WorkerState) :
    searchLoop fs Match pattern paths st
      = { st with
          results := st.results ++ paths.flatMap (fileResults fs Match pattern),
          stderr := st.stderr ++ paths.filter (fun p => (fs p).isNone) } := by
  induction paths generalizing st with
  | nil => simp [searchLoop]
  | cons path rest ih =>
    rw [searchLoop]
    cases h : fs path with
    | none => simp [ih, fileResults, h, List.filter_cons]
    | some lines =>
      have h0 := scanLoop_eq Match pattern path lines 0 st
      simp only [Nat.cast_zero, Nat.zero_add] at h0
      simp [ih, h0, fileResults, matchingLines, h, List.filter_cons]

theorem searchWorker_eq (fs : FileSystem) (Match : Matcher) (pattern : GoString)
    (paths : List GoString) :
    searchWorker fs Match pattern paths
      = { results := paths.flatMap (fileResults fs Match pattern),
          stderr := paths.filter (fun p => (fs p).isNone),
          done := true } := by
  simp [searchWorker, searchLoop_eq, WorkerState.init]

theorem pairwise_fst_enumFrom (lines : List GoString) (n : Nat) :
    (lines.enumFrom n).Pairwise (fun a b => a.1 < b.1) := by
  induction lines generalizing n with
  | nil => simp
  | cons line rest ih =>
    rw [List.enumFrom_cons, List.pairwise_cons]
    refine ⟨?_, ih (n + 1)⟩
    intro x hx
    have := List.le_fst_of_mem_enumFrom hx
    simp only
    omega

theorem pairwise_matchingLines (Match : Matcher) (pattern path : GoString)
    (lines : List GoString) :
    (matchingLines Match pattern path lines).Pairwise
      (fun a b => a.LineNumber < b.LineNumber) := by
  unfold matchingLines
  rw [List.pairwise_map]
  apply List.Pairwise.filter
  exact (pairwise_fst_enumFrom lines 1).imp (fun h => Int.ofNat_lt.2 h)

theorem mem_matchingLines (Match : Matcher) (pattern path : GoString)
    (lines : List GoString) (r : SearchResult) :
    r ∈ matchingLines Match pattern path lines ↔
      ∃ (i : Nat) (l : GoString),
        lines[i]? = some l ∧ Match pattern l = true ∧ r = ⟨path, (i : Int) + 1, l⟩ := by
  unfold matchingLines
  simp only [List.mem_map, List.mem_filter, Prod.exists]
  constructor
  · rintro ⟨n, l, ⟨hmem, hm⟩, rfl⟩
    rw [List.mk_mem_enumFrom_iff_le_and_getElem?_sub] at hmem
    refine ⟨n - 1, l, hmem.2, hm, ?_⟩
    have : ((n - 1 : Nat) : Int) + 1 = (n : Int) := by omega
    simp [this]
  · rintro ⟨i, l, hl, hm, rfl⟩
    refine ⟨1 + i, l, ⟨?_, hm⟩, ?_⟩
    · exact List.mk_add_mem_enumFrom_iff_getElem?.2 hl
    · have : ((1 + i : Nat) : Int) = (i : Int) + 1 := by omega
      simp [this]

/-- Relative to the tokens the scanner yields: for every matcher, pattern and
path `p`, and every file that opens at `p` and for which the scanner yields
the tokens `l_1 .. l_n`, the results `searchWorker` emits for `p` are exactly,
in order, `(p, i, l_i)` for the positions `i` in `1..n` whose token the matcher
accepts: line numbers increase strictly in emission order, every result is an
accepted token at its 1-based position, and every accepted token is emitted
exactly once. -/
theorem searchWorker_emits_matching_lines (fs : FileSystem) (Match : Matcher)
    (pattern p : GoString) (lines : List GoString) (h : fs p = some lines) :
    (searchWorker fs Match pattern [p]).results = matchingLines Match pattern p lines ∧
    (searchWorker fs Match pattern [p]).results.Pairwise
      (fun a b => a.LineNumber < b.LineNumber) ∧
    (∀ r ∈ (searchWorker fs Match pattern [p]).results,
      r.FilePath = p ∧ 1 ≤ r.LineNumber ∧ r.LineNumber ≤ lines.length ∧
      lines[(r.LineNumber - 1).toNat]? = some r.LineContent ∧
      Match pattern r.LineContent = true) ∧
    (∀ (i : Nat) (l : GoString), lines[i]? = some l → Match pattern l = true →
      (searchWorker fs Match pattern [p]).results.count ⟨p, (i : Int) + 1, l⟩ = 1) := by
  have hres : (searchWorker fs Match pattern [p]).results = matchingLines Match pattern p lines := by
    simp [searchWorker_eq, fileResults, h]
  rw [hres]
  refine ⟨rfl, pairwise_matchingLines Match pattern p lines, ?_, ?_⟩
  · intro r hr
    obtain ⟨i, l, hl, hm, rfl⟩ := (mem_matchingLines Match pattern p lines r).1 hr
    have hi : i < lines.length := by
      by_contra hge
      rw [List.getElem?_eq_none (by omega)] at hl
      exact Option.noConfusion hl
    refine ⟨rfl, by simp only; omega, by simp only; omega, ?_, hm⟩
    simpa using hl
  · intro i l hl hm
    apply count_eq_one_of_nodup
    · exact (pairwise_matchingLines Match pattern p lines).imp
        (fun hlt heq => by rw [heq] at hlt; exact lt_irrefl _ hlt)
    · exact (mem_matchingLines Match pattern p lines _).2 ⟨i, l, hl, hm, rfl⟩

/-- The file `a.txt` of the scenario with the pattern `hello`: the one result
is line 1, and it is emitted once. -/
theorem searchWorker_emits_matching_lines_witness :
    (searchWorker scenarioFiles subsequence (str "hello") [str "a.txt"]).results
      = [⟨str "a.txt", 1, str "hello world"⟩] ∧
    (searchWorker scenarioFiles subsequence (str "hello") [str "a.txt"]).results.count
      ⟨str "a.txt", ((0 : Nat) : Int) + 1, str "hello world"⟩ = 1 :=
  ⟨by decide,
   (searchWorker_emits_matching_lines scenarioFiles subsequence (str "hello") (str "a.txt")
      [str "hello world", str "foo bar"] (by decide)).2.2.2 0 (str "hello world")
      (by decide) (by decide)⟩

/-! ### The scanner and the lines of a file -/

theorem IndexByte_append_sep (pre t : GoString) (c : UInt8) (h : ∀ b ∈ pre, b ≠ c) :
    IndexByte (pre ++ c :: t) c = some pre.length := by
  induction pre with
  | nil => simp [IndexByte]
  | cons a pre ih =>
    have ha : a ≠ c := h a (List.mem_cons_self _ _)
    have ih1 := ih (fun b hb => h b (List.mem_cons_of_mem _ hb))
    simp [IndexByte, ha, ih1]

theorem IndexByte_lt (data : GoString) (c : UInt8) (i : Nat)
    (h : IndexByte data c = some i) : i < data.length := by
  induction data generalizing i with
  | nil => simp [IndexByte] at h
  | cons a data ih =>
    rw [IndexByte] at h
    split at h
    · simp only [Option.some.injEq] at h
      subst h
      simp
    · cases hd : IndexByte data c with
      | none => simp [hd] at h
      | some k =>
        simp only [hd, Option.map_some', Option.some.injEq] at h
        subst h
        have := ih k hd
        simp only [List.length_cons]
        omega

theorem IndexByte_take (data : GoString) (c : UInt8) (m : Nat) :
    IndexByte (data.take m) c
      = (IndexByte data c).bind (fun i => if i < m then some i else none) := by
  induction data generalizing m with
  | nil => simp [IndexByte]
  | cons a data ih =>
    cases m with
    | zero =>
      cases hd : IndexByte (a :: data) c <;> simp [IndexByte]
    | succ m =>
      rw [List.take_succ_cons, IndexByte, IndexByte]
      by_cases ha : a = c
      · simp [ha]
      · simp only [ha, if_false, ih]
        cases hd : IndexByte data c with
        | none => simp
        | some k =>
          by_cases hk : k < m
          · simp [hk]
          · simp [hk]

theorem Scan_nil : Scan [] = none := by
  simp [Scan, ScanLines, MaxScanTokenSize]

theorem Scan_line (pre t : GoString) (h : ∀ b ∈ pre, b ≠ 10)
    (hlen : pre.length < MaxScanTokenSize) :
    Scan (pre ++ 10 :: t) = some (dropCR pre, t) := by
  have hidx := IndexByte_append_sep pre t 10 h
  have hdrop : (pre ++ 10 :: t).drop (pre.length + 1) = t := by
    rw [← List.drop_drop, List.drop_left]
    rfl
  unfold Scan
  by_cases hl : (pre ++ 10 :: t).length < MaxScanTokenSize
  · have hne : ¬ (pre ++ 10 :: t).length = 0 := by simp
    simp only [hl, if_true, ScanLines, hne, and_false, if_false, hidx, List.take_left, hdrop]
  · have hne : ¬ (false = true ∧ ((pre ++ 10 :: t).take MaxScanTokenSize).length = 0) := by
      simp
    have hmin : min pre.length MaxScanTokenSize = pre.length := by omega
    simp only [hl, if_false, ScanLines, hne, IndexByte_take, hidx, Option.some_bind, hlen,
      if_true, List.take_take, hmin, List.take_left, hdrop]

theorem Scan_long (pre t : GoString) (h : ∀ b ∈ pre, b ≠ 10)
    (hlen : MaxScanTokenSize ≤ pre.length) :
    Scan (pre ++ 10 :: t) = none := by
  have hidx := IndexByte_append_sep pre t 10 h
  have hl : ¬ (pre ++ 10 :: t).length < MaxScanTokenSize := by
    simp only [List.length_append, List.length_cons]
    omega
  have hne : ¬ (false = true ∧ ((pre ++ 10 :: t).take MaxScanTokenSize).length = 0) := by
    simp
  have hlt : ¬ pre.length < MaxScanTokenSize := by omega
  unfold Scan
  simp only [hl, if_false, ScanLines, hne, IndexByte_take, hidx, Option.some_bind, hlt]
  simp

theorem IndexByte_none (data : GoString) (c : UInt8) (h : ∀ b ∈ data, b ≠ c) :
    IndexByte data c = none := by
  induction data with
  | nil => rfl
  | cons a data ih =>
    have ha : a ≠ c := h a (List.mem_cons_self _ _)
    simp [IndexByte, ha, ih (fun b hb => h b (List.mem_cons_of_mem _ hb))]

theorem IndexByte_cases (data : GoString) (c : UInt8) :
    (∀ b ∈ data, b ≠ c) ∨
    ∃ pre t, data = pre ++ c :: t ∧ ∀ b ∈ pre, b ≠ c := by
  induction data with
  | nil => exact Or.inl (by simp)
  | cons a data ih =>
    by_cases ha : a = c
    · exact Or.inr ⟨[], data, by simp [ha], by simp⟩
    · rcases ih with h | ⟨pre, t, hd, hpre⟩
      · left
        intro b hb
        rcases List.mem_cons.1 hb with hb | hb
        · exact hb ▸ ha
        · exact h b hb
      · right
        refine ⟨a :: pre, t, by simp [hd], ?_⟩
        intro b hb
        rcases List.mem_cons.1 hb with hb | hb
        · exact hb ▸ ha
        · exact hpre b hb

theorem Scan_last (data : GoString) (hne : data ≠ []) (h : ∀ b ∈ data, b ≠ 10)
    (hlen : data.length < MaxScanTokenSize) :
    Scan data = some (dropCR data, []) := by
  have hidx := IndexByte_none data 10 h
  have hl : ¬ data.length = 0 := by
    intro h0
    exact hne (List.length_eq_zero.1 h0)
  unfold Scan
  simp only [hlen, if_true, ScanLines, hl, and_false, if_false, hidx, List.drop_length]

theorem Scan_full (data : GoString) (h : ∀ b ∈ data, b ≠ 10)
    (hlen : MaxScanTokenSize ≤ data.length) :
    Scan data = none := by
  have hidx := IndexByte_none data 10 h
  have hl : ¬ data.length < MaxScanTokenSize := by omega
  have hne : ¬ (false = true ∧ (data.take MaxScanTokenSize).length = 0) := by simp
  unfold Scan
  simp only [hl, if_false, ScanLines, hne, IndexByte_take, hidx, Option.none_bind]
  simp

theorem Scan_decreases (data token rest : GoString) (h : Scan data = some (token, rest)) :
    rest.length < data.length := by
  rcases IndexByte_cases data 10 with hno | ⟨pre, t, hd, hpre⟩
  · by_cases hne : data = []
    · rw [hne, Scan_nil] at h
      exact Option.noConfusion h
    · by_cases hlen : data.length < MaxScanTokenSize
      · rw [Scan_last data hne hno hlen] at h
        simp only [Option.some.injEq, Prod.mk.injEq] at h
        rw [← h.2]
        exact List.length_pos.2 hne
      · rw [Scan_full data hno (by omega)] at h
        exact Option.noConfusion h
  · subst hd
    by_cases hlen : pre.length < MaxScanTokenSize
    · rw [Scan_line pre t hpre hlen] at h
      simp only [Option.some.injEq, Prod.mk.injEq] at h
      rw [← h.2]
      simp only [List.length_append, List.length_cons]
      omega
    · rw [Scan_long pre t hpre (by omega)] at h
      exact Option.noConfusion h

theorem scanTokens_fuel (f1 : Nat) : ∀ (f2 : Nat) (data : GoString),
    data.length ≤ f1 → data.length ≤ f2 → scanTokens f1 data = scanTokens f2 data := by
  induction f1 with
  | zero =>
    intro f2 data h1 _
    have hd : data = [] := List.length_eq_zero.1 (by omega)
    subst hd
    cases f2 with
    | zero => rfl
    | succ f2 => simp [scanTokens, Scan_nil]
  | succ f1 ih =>
    intro f2 data h1 h2
    cases f2 with
    | zero =>
      have hd : data = [] := List.length_eq_zero.1 (by omega)
      subst hd
      simp [scanTokens, Scan_nil]
    | succ f2 =>
      rw [scanTokens, scanTokens]
      cases hs : Scan data with
      | none => rfl
      | some r =>
        obtain ⟨token, rest⟩ := r
        have hdec := Scan_decreases data token rest hs
        simp only
        rw [ih f2 rest (by omega) (by omega)]

theorem fileLines_nil : fileLines [] = [] := by
  simp [fileLines, List.splitOnP_nil]

theorem fileLines_single (data : GoString) (hne : data ≠ []) (h : ∀ b ∈ data, b ≠ 10) :
    fileLines data = [dropCR data] := by
  have hs : List.splitOnP (fun b => b == 10) data = [data] :=
    List.splitOnP_eq_single _ _ (by intro b hb; simpa using h b hb)
  unfold fileLines
  simp [hs, hne]

theorem fileLines_line (pre t : GoString) (h : ∀ b ∈ pre, b ≠ 10) :
    fileLines (pre ++ 10 :: t) = dropCR pre :: fileLines t := by
  have hs : List.splitOnP (fun b => b == 10) (pre ++ 10 :: t)
      = pre :: List.splitOnP (fun b => b == 10) t :=
    List.splitOnP_first _ _ (by intro b hb; simpa using h b hb) 10 (by decide) t
  obtain ⟨p, ps, hps⟩ := List.exists_cons_of_ne_nil
    (List.splitOnP_ne_nil (fun b => b == 10) t)
  unfold fileLines
  simp only [hs, hps, List.getLast?_cons_cons, List.dropLast_cons₂]
  split <;> simp

theorem scanTokens_eq_fileLines (fuel : Nat) : ∀ (data : GoString),
    data.length ≤ fuel →
    (∀ piece ∈ List.splitOnP (fun b => b == 10) data, piece.length < MaxScanTokenSize) →
    scanTokens fuel data = fileLines data := by
  induction fuel with
  | zero =>
    intro data h1 _
    have hd : data = [] := List.length_eq_zero.1 (by omega)
    subst hd
    rw [fileLines_nil]
    rfl
  | succ fuel ih =>
    intro data h1 hshort
    rw [scanTokens]
    rcases IndexByte_cases data 10 with hno | ⟨pre, t, hd, hpre⟩
    · by_cases hne : data = []
      · subst hne
        rw [Scan_nil, fileLines_nil]
      · have hs : List.splitOnP (fun b => b == 10) data = [data] :=
          List.splitOnP_eq_single _ _ (by intro b hb; simpa using hno b hb)
        have hlen : data.length < MaxScanTokenSize := hshort data (by simp [hs])
        rw [Scan_last data hne hno hlen, fileLines_single data hne hno]
        have h0 : scanTokens fuel [] = [] := by
          cases fuel with
          | zero => rfl
          | succ fuel => simp [scanTokens, Scan_nil]
        simp [h0]
    · subst hd
      have hs : List.splitOnP (fun b => b == 10) (pre ++ 10 :: t)
          = pre :: List.splitOnP (fun b => b == 10) t :=
        List.splitOnP_first _ _ (by intro b hb; simpa using hpre b hb) 10 (by decide) t
      have hlen : pre.length < MaxScanTokenSize := hshort pre (by simp [hs])
      have hrest := ih t
        (by simp only [List.length_append, List.length_cons] at h1; omega)
        (fun piece hp => hshort piece (by rw [hs]; exact List.mem_cons_of_mem _ hp))
      rw [Scan_line pre t hpre hlen, fileLines_line pre t hpre]
      simp [hrest]

theorem results_of_short_lines (disk : Disk) (Match : Matcher) (pattern p data : GoString)
    (h : disk p = some data)
    (hshort : ∀ piece ∈ List.splitOnP (fun b => b == 10) data,
      piece.length < MaxScanTokenSize) :
    (searchWorker disk.scan Match pattern [p]).results
      = matchingLines Match pattern p (fileLines data) := by
  have hfs : disk.scan p = some (fileLines data) := by
    simp [Disk.scan, h, scanTokens_eq_fileLines data.length data (le_refl _) hshort]
  simp [searchWorker_eq, fileResults, hfs]

theorem longLine_no_feed : ∀ b ∈ longLine, b ≠ 10 := by
  intro b hb
  rw [longLine, List.mem_replicate] at hb
  rw [hb.2]
  decide

theorem longLine_length : longLine.length = 65536 := by
  rw [longLine, List.length_replicate]

theorem dropCR_longLine : dropCR longLine = longLine := by
  have h : longLine.getLast? = some 97 := by
    rw [longLine, List.getLast?_replicate]
    simp
  unfold dropCR
  rw [h]
  simp

theorem subsequence_longLine : subsequence (str "hello") longLine = false := by
  have h : ∀ (n : Nat) (p : UInt8) (ps : GoString), p ≠ 97 →
      subsequence (p :: ps) (List.replicate n 97) = false := by
    intro n p ps hp
    induction n with
    | zero => rfl
    | succ n ih =>
      rw [List.replicate_succ, subsequence, if_neg hp, ih]
  have hs : str "hello" = 104 :: str "ello" := by decide
  rw [hs, longLine]
  exact h _ _ _ (by decide)

theorem scanTokens_longLineFile :
    scanTokens longLineFile.length longLineFile = [str "hello"] := by
  have hpos : ∃ k, longLineFile.length = k + 1 := by
    rw [longLineFile, List.length_append, List.length_cons]
    exact ⟨_, (Nat.add_assoc _ _ 1).symm⟩
  obtain ⟨k, hk⟩ := hpos
  have hmax : MaxScanTokenSize ≤ longLine.length := by
    rw [longLine_length]
    decide
  have hrest : ∀ k, scanTokens k (longLine ++ 10 :: (str "hello again" ++ [10])) = [] := by
    intro k
    cases k with
    | zero => rfl
    | succ k => rw [scanTokens, Scan_long _ _ longLine_no_feed hmax]
  rw [hk, scanTokens, longLineFile, Scan_line _ _ (by decide) (by decide)]
  simp only [hrest]
  decide

theorem fileLines_longLineFile :
    fileLines longLineFile = [str "hello", longLine, str "hello again"] := by
  have h1 : ∀ x ∈ str "hello", ¬ (fun b : UInt8 => b == 10) x = true := by decide
  have h2 : ∀ x ∈ longLine, ¬ (fun b : UInt8 => b == 10) x = true := by
    intro x hx
    simpa using longLine_no_feed x hx
  have h3 : ∀ x ∈ str "hello again", ¬ (fun b : UInt8 => b == 10) x = true := by decide
  have hd1 : dropCR (str "hello") = str "hello" := by decide
  have hd3 : dropCR (str "hello again") = str "hello again" := by decide
  unfold fileLines longLineFile
  rw [List.splitOnP_first _ _ h1 10 (by decide), List.splitOnP_first _ _ h2 10 (by decide),
    List.splitOnP_first _ _ h3 10 (by decide), List.splitOnP_nil]
  simp [hd1, hd3, dropCR_longLine]

/-- C2 on the code: the file `a.txt` has the three lines `hello`, a line of
65536 letters `a`, and `hello again`; the pattern is `hello`. The claim
expects the results `(a.txt, 1, hello)` and `(a.txt, 3, hello again)`. The
scanner of `searchWorker` stops at the second line, which is longer than its
buffer, `scanner.Err()` is never read, and the worker emits the first result
only, without a diagnostic. On a file of short lines the results are those
the claim expects. -/
theorem searchWorker_stops_at_long_line :
    fileLines longLineFile = [str "hello", longLine, str "hello again"] ∧
    matchingLines subsequence (str "hello") (str "a.txt") (fileLines longLineFile)
      = [⟨str "a.txt", 1, str "hello"⟩, ⟨str "a.txt", 3, str "hello again"⟩] ∧
    searchWorker longLineDisk.scan subsequence (str "hello") [str "a.txt"]
      = ⟨[⟨str "a.txt", 1, str "hello"⟩], [], true⟩ ∧
    (searchWorker shortLineDisk.scan subsequence (str "hello") [str "a.txt"]).results
      = matchingLines subsequence (str "hello") (str "a.txt")
          (fileLines (str "hello world\r\nfoo bar\nhello")) ∧
    fileLines (str "hello world\r\nfoo bar\nhello")
      = [str "hello world", str "foo bar", str "hello"] := by
  refine ⟨fileLines_longLineFile, ?_, ?_, by decide, by decide⟩
  · have hm1 : subsequence (str "hello") (str "hello") = true := by decide
    have hm3 : subsequence (str "hello") (str "hello again") = true := by decide
    rw [fileLines_longLineFile]
    simp [matchingLines, List.enumFrom, List.filter, hm1, hm3, subsequence_longLine]
  · have hfs : longLineDisk.scan (str "a.txt") = some [str "hello"] := by
      simp [Disk.scan, longLineDisk, scanTokens_longLineFile]
    have hm : matchingLines subsequence (str "hello") (str "a.txt") [str "hello"]
        = [⟨str "a.txt", 1, str "hello"⟩] := by decide
    simp [searchWorker_eq, fileResults, hfs, hm]

/-- C6: for every list of paths a worker takes and every file system,
`searchWorker` emits exactly the concatenation, in path order, of the per-file
results of the paths that open; a path that does not open yields a diagnostic
and no result, and the paths after it are processed as if it had not been
there; the worker returns only once the list is exhausted. -/
theorem searchWorker_skips_unopenable (fs : FileSystem) (Match : Matcher)
    (pattern : GoString) (paths : List GoString) :
    (searchWorker fs Match pattern paths).results
      = (paths.filter (fun p => (fs p).isSome)).flatMap
          (fun p => (searchWorker fs Match pattern [p]).results) ∧
    (searchWorker fs Match pattern paths).stderr = paths.filter (fun p => (fs p).isNone) ∧
    (∀ p, fs p = none → (searchWorker fs Match pattern [p]).results = []) ∧
    (∀ (before after : List GoString) (p : GoString), fs p = none →
      (searchWorker fs Match pattern (before ++ p :: after)).results
        = (searchWorker fs Match pattern before).results
          ++ (searchWorker fs Match pattern after).results) ∧
    (searchWorker fs Match pattern paths).done = true := by
  simp only [searchWorker_eq]
  refine ⟨?_, trivial, ?_, ?_, trivial⟩
  · induction paths with
    | nil => simp
    | cons a rest ih =>
      cases ha : fs a with
      | none => simpa [List.filter_cons, ha, fileResults] using ih
      | some lines => simpa [List.filter_cons, ha] using ih
  · intro p hp
    simp [fileResults, hp]
  · intro before after p hp
    simp [fileResults, hp]

/-- C6 on the scenario: the path `zz` does not open; the worker reports it and
still emits the results of `a.txt` before it and of `b.go` after it. -/
theorem searchWorker_skips_unopenable_witness :
    searchWorker scenarioFiles subsequence (str "hello") [str "a.txt", str "zz", str "b.go"]
      = ⟨[⟨str "a.txt", 1, str "hello world"⟩, ⟨str "b.go", 1, str "hello there"⟩],
          [str "zz"], true⟩ ∧
    (searchWorker scenarioFiles subsequence (str "hello")
        ([str "a.txt"] ++ str "zz" :: [str "b.go"])).results
      = (searchWorker scenarioFiles subsequence (str "hello") [str "a.txt"]).results
        ++ (searchWorker scenarioFiles subsequence (str "hello") [str "b.go"]).results :=
  ⟨by decide,
   (searchWorker_skips_unopenable scenarioFiles subsequence (str "hello") []).2.2.2.1
     [str "a.txt"] [str "b.go"] (str "zz") (by decide)⟩

/-! ## `printResults` -/

theorem digitChar_toUInt8 (d : Nat) (hd : d < 10) :
    (Nat.digitChar d).toUInt8 = UInt8.ofNat (48 + d) := by
  interval_cases d <;> decide

theorem toDigitsCore_eq_fmtDigits (f1 : Nat) : ∀ (f2 u : Nat) (ds : List Char),
    u < f1 → u ≤ f2 →
    (Nat.toDigitsCore 10 f1 u ds).map Char.toUInt8 = fmtDigits f2 u (ds.map Char.toUInt8) := by
  induction f1 with
  | zero => intro f2 u ds h; omega
  | succ f1 ih =>
    intro f2 u ds h1 h2
    rw [Nat.toDigitsCore]
    by_cases hu : u / 10 = 0
    · have hlt : u < 10 := by omega
      have hmod : u % 10 = u := Nat.mod_eq_of_lt hlt
      cases f2 with
      | zero =>
        simp [hu, fmtDigits, hmod, digitChar_toUInt8 u hlt]
      | succ f2 =>
        have hge : ¬ u ≥ 10 := by omega
        simp [hu, fmtDigits, hge, hmod, digitChar_toUInt8 u hlt]
    · have hge : u ≥ 10 := by omega
      cases f2 with
      | zero => omega
      | succ f2 =>
        have hd : 48 + u - u / 10 * 10 = 48 + u % 10 := by omega
        have h3 := ih f2 (u / 10) (Nat.digitChar (u % 10) :: ds) (by omega) (by omega)
        simp only [hu, if_false, h3, fmtDigits, hge, if_true, List.map_cons, hd,
          digitChar_toUInt8 (u % 10) (Nat.mod_lt u (by decide))]

theorem fmtInteger_eq_decimal (n : Int) : fmtInteger n = decimal n := by
  have h := toDigitsCore_eq_fmtDigits (n.natAbs + 1) n.natAbs n.natAbs [] (by omega) (by omega)
  unfold fmtInteger decimal Nat.toDigits
  rw [h]
  split <;> simp

theorem Sprintf_found (path content : GoString) (n : Int) :
    Sprintf (str "Found in %s:%d: %s\n") [Arg.string path, Arg.int n, Arg.string content]
      = str "Found in " ++ path ++ str ":" ++ fmtInteger n ++ str ": " ++ content ++ str "\n" := by
  have h1 : str "Found in %s:%d: %s\n"
      = [70, 111, 117, 110, 100, 32, 105, 110, 32, 37, 115, 58, 37, 100, 58, 32, 37, 115, 10] := by
    decide
  have h2 : str "Found in " = [70, 111, 117, 110, 100, 32, 105, 110, 32] := by decide
  have h3 : str ":" = [58] := by decide
  have h4 : str ": " = [58, 32] := by decide
  have h5 : str "\n" = [10] := by decide
  rw [h1, h2, h3, h4, h5]
  simp [Sprintf]

theorem printResults_append (xs ys : List SearchResult) :
    printResults (xs ++ ys) = printResults xs ++ printResults ys := by
  unfold printResults
  rw [List.foldl_append]
  generalize List.foldl _ [] xs = out
  induction ys generalizing out with
  | nil => simp
  | cons y ys ih =>
    rw [List.foldl_cons, ih, List.foldl_cons, ih ([] ++ _)]
    simp

/-- C9: `printResults` renders a result `r` as exactly the bytes of `Found in `,
the file path, a colon, the line number in decimal notation, a colon and a
blank, the line content and a line feed; for a sequence of results the output
is the concatenation of these renderings in arrival order, one per result. -/
theorem printResults_renders_each_result (received : List SearchResult) :
    (∀ r : SearchResult, printResults [r]
      = str "Found in " ++ r.FilePath ++ str ":" ++ decimal r.LineNumber ++ str ": "
          ++ r.LineContent ++ str "\n") ∧
    printResults received
      = received.flatMap (fun r =>
          str "Found in " ++ r.FilePath ++ str ":" ++ decimal r.LineNumber ++ str ": "
            ++ r.LineContent ++ str "\n") := by
  have hone : ∀ r : SearchResult, printResults [r]
      = str "Found in " ++ r.FilePath ++ str ":" ++ decimal r.LineNumber ++ str ": "
          ++ r.LineContent ++ str "\n" := by
    intro r
    simp [printResults, Sprintf_found, fmtInteger_eq_decimal]
  refine ⟨hone, ?_⟩
  induction received with
  | nil => rfl
  | cons r rest ih =>
    have h := printResults_append [r] rest
    rw [List.singleton_append] at h
    rw [h, ih, hone, List.flatMap_cons]

/-! ## The pipeline -/

theorem sum_map_set {α : Type} (f : α → Multiset SearchResult) (l : List α) (i : Nat)
    (w w' : α) (h : l.get? i = some w) :
    ((l.set i w').map f).sum + f w = (l.map f).sum + f w' := by
  induction l generalizing i with
  | nil => simp at h
  | cons a t ih =>
    cases i with
    | zero =>
      simp only [List.get?_cons_zero, Option.some.injEq] at h
      subst h
      simp only [List.set_cons_zero, List.map_cons, List.sum_cons]
      abel
    | succ i =>
      simp only [List.get?_cons_succ] at h
      have := ih i h
      simp only [List.set_cons_succ, List.map_cons, List.sum_cons]
      rw [add_assoc, this, add_assoc]

theorem countP_set {α : Type} (p : α → Bool) (l : List α) (i : Nat) (w w' : α)
    (h : l.get? i = some w) :
    (l.set i w').countP p + (if p w then 1 else 0) = l.countP p + (if p w' then 1 else 0) := by
  induction l generalizing i with
  | nil => simp at h
  | cons a t ih =>
    cases i with
    | zero =>
      simp only [List.get?_cons_zero, Option.some.injEq] at h
      subst h
      simp only [List.set_cons_zero, List.countP_cons]
      omega
    | succ i =>
      simp only [List.get?_cons_succ] at h
      have := ih i h
      simp only [List.set_cons_succ, List.countP_cons]
      omega

theorem mem_of_get_eq_some {α : Type} (l : List α) (i : Nat) (a : α)
    (h : l.get? i = some a) : a ∈ l := by
  induction l generalizing i with
  | nil => simp at h
  | cons b t ih =>
    cases i with
    | zero =>
      simp only [List.get?_cons_zero, Option.some.injEq] at h
      simp [h]
    | succ i =>
      simp only [List.get?_cons_succ] at h
      exact List.mem_cons_of_mem _ (ih i h)

theorem pendingSum_set (workers : List Worker) (i : Nat) (w w' : Worker)
    (h : workers.get? i = some w) :
    pendingSum (workers.set i w') + (w.pending : Multiset SearchResult)
      = pendingSum workers + (w'.pending : Multiset SearchResult) :=
  sum_map_set (fun w => (w.pending : Multiset SearchResult)) workers i w w' h

theorem results_cons (fs : FileSystem) (Match : Matcher) (pattern path : GoString)
    (rest : List GoString) :
    (searchWorker fs Match pattern (path :: rest)).results
      = (searchWorker fs Match pattern [path]).results
        ++ (searchWorker fs Match pattern rest).results := by
  simp [searchWorker_eq]

theorem invariant_init (fs : FileSystem) (Match : Matcher) (pattern : GoString)
    (paths : List GoString) (n : Nat) :
    Invariant fs Match pattern
      ((searchWorker fs Match pattern paths).results : Multiset SearchResult)
      (Pipeline.init paths n) := by
  refine ⟨?_, ?_, ?_⟩
  · have h : pendingSum (List.replicate n Worker.receiving) = 0 := by
      simp [pendingSum, Worker.pending]
    simp [Pipeline.init, walkerRest, h]
  · intro _
    simp [Pipeline.init, live, List.countP_replicate, Worker.isLive]
  · intro h
    exact absurd rfl h

theorem invariant_step (fs : FileSystem) (Match : Matcher) (pattern : GoString)
    (total : Multiset SearchResult) (s s1 : Pipeline) (ev : Event)
    (hinv : Invariant fs Match pattern total s)
    (h : step fs Match pattern s ev = some s1) :
    Invariant fs Match pattern total s1 := by
  obtain ⟨hsum, hwg, hdone⟩ := hinv
  unfold step at h
  split at h
  · exact Option.noConfusion h
  · cases ev with
    | offer i =>
      simp only at h
      split at h
      · rename_i path rest hwalker hworker
        have hs1 := Option.some.inj h
        subst hs1
        have hp := pendingSum_set s.workers i Worker.receiving
          (Worker.scanning (searchWorker fs Match pattern [path]).results) hworker
        have hc := countP_set Worker.isLive s.workers i
          Worker.receiving (Worker.scanning (searchWorker fs Match pattern [path]).results)
          hworker
        refine ⟨?_, ?_, ?_⟩
        · simp only [walkerRest, hwalker, results_cons fs Match pattern path rest] at hsum ⊢
          simp only [Worker.pending, Multiset.coe_nil, add_zero] at hp
          rw [hp, ← hsum, ← Multiset.coe_add]
          abel
        · intro hm
          have := hwg hm
          simp only [live, hwalker, Option.isSome_some, if_true] at this ⊢
          simp only [Worker.isLive, if_true] at hc
          omega
        · intro hm
          have := (hdone hm).1
          rw [hwalker] at this
          exact Option.noConfusion this
      · exact Option.noConfusion h
    | walkerReturn =>
      simp only at h
      split at h
      · rename_i hwalker
        have hs1 := Option.some.inj h
        subst hs1
        refine ⟨?_, ?_, ?_⟩
        · simpa [walkerRest, hwalker, searchWorker_eq] using hsum
        · intro hm
          have := hwg hm
          simp only [live, hwalker, Option.isSome_some, Option.isSome_none, if_true] at this ⊢
          simp
          omega
        · intro hm
          have := (hdone hm).1
          rw [hwalker] at this
          exact Option.noConfusion this
      · exact Option.noConfusion h
    | emit i =>
      simp only at h
      split at h
      · rename_i res rest hworker hprinter
        have hs1 := Option.some.inj h
        subst hs1
        have hp := pendingSum_set s.workers i (Worker.scanning (res :: rest))
          (Worker.scanning rest) hworker
        have hc := countP_set Worker.isLive s.workers i (Worker.scanning (res :: rest))
          (Worker.scanning rest) hworker
        refine ⟨?_, ?_, ?_⟩
        · simp only [Worker.pending, ← Multiset.cons_coe, ← Multiset.singleton_add] at hp
          have hp1 : pendingSum (s.workers.set i (Worker.scanning rest)) + {res}
              = pendingSum s.workers := by
            apply add_right_cancel (b := (rest : Multiset SearchResult))
            rw [add_assoc]
            exact hp
          show ((s.emitted ++ [res] : List SearchResult) : Multiset SearchResult)
            + walkerRest fs Match pattern s
            + pendingSum (s.workers.set i (Worker.scanning rest)) = total
          rw [← hsum, ← hp1, ← Multiset.coe_add, Multiset.coe_singleton]
          abel
        · intro hm
          have := hwg hm
          simp only [live] at this ⊢
          simp only [Worker.isLive, if_true] at hc
          omega
        · intro hm
          have := (hdone hm).2 _ (mem_of_get_eq_some _ _ _ hworker)
          exact Worker.noConfusion this
      · exact Option.noConfusion h
    | fileDone i =>
      simp only at h
      split at h
      · rename_i hworker
        have hs1 := Option.some.inj h
        subst hs1
        have hp := pendingSum_set s.workers i (Worker.scanning []) Worker.receiving hworker
        have hc := countP_set Worker.isLive s.workers i (Worker.scanning []) Worker.receiving
          hworker
        refine ⟨?_, ?_, ?_⟩
        · simp only [Worker.pending, Multiset.coe_nil, add_zero] at hp
          show (s.emitted : Multiset SearchResult) + walkerRest fs Match pattern s
            + pendingSum (s.workers.set i Worker.receiving) = total
          rw [hp, hsum]
        · intro hm
          have := hwg hm
          simp only [live] at this ⊢
          simp only [Worker.isLive, if_true] at hc
          omega
        · intro hm
          have := (hdone hm).2 _ (mem_of_get_eq_some _ _ _ hworker)
          exact Worker.noConfusion this
      · exact Option.noConfusion h
    | workerReturn i =>
      simp only at h
      split at h
      · rename_i hworker hwalker
        have hs1 := Option.some.inj h
        subst hs1
        have hp := pendingSum_set s.workers i Worker.receiving Worker.returned hworker
        have hc := countP_set Worker.isLive s.workers i Worker.receiving Worker.returned hworker
        refine ⟨?_, ?_, ?_⟩
        · simp only [Worker.pending, Multiset.coe_nil, add_zero] at hp
          show (s.emitted : Multiset SearchResult) + walkerRest fs Match pattern s
            + pendingSum (s.workers.set i Worker.returned) = total
          rw [hp, hsum]
        · intro hm
          have := hwg hm
          simp only [live] at this ⊢
          simp only [Worker.isLive, if_true] at hc
          simp at hc
          omega
        · intro hm
          have := (hdone hm).2 _ (mem_of_get_eq_some _ _ _ hworker)
          exact Worker.noConfusion this
      · exact Option.noConfusion h
    | print =>
      simp only at h
      split at h
      · have hs1 := Option.some.inj h
        subst hs1
        exact ⟨hsum, hwg, hdone⟩
      · exact Option.noConfusion h
    | printerReturn =>
      simp only at h
      split at h
      · split at h
        · have hs1 := Option.some.inj h
          subst hs1
          exact ⟨hsum, hwg, hdone⟩
        · exact Option.noConfusion h
      · exact Option.noConfusion h
    | mainClose =>
      simp only at h
      split at h
      · rename_i hcond
        have hs1 := Option.some.inj h
        subst hs1
        refine ⟨hsum, ?_, ?_⟩
        · intro hm
          exact Coordinator.noConfusion hm
        · intro _
          have hl := hwg hcond.1
          rw [hcond.2] at hl
          simp only [live] at hl
          have h1 : (if s.walker.isSome = true then 1 else 0) = 0 := by omega
          have h2 : List.countP Worker.isLive s.workers = 0 := by omega
          constructor
          · cases hw : s.walker with
            | none => rfl
            | some ps => simp [hw] at h1
          · intro w hw
            have h3 := (List.countP_eq_zero.1 h2) w hw
            cases w with
            | returned => rfl
            | receiving => exact absurd rfl h3
            | scanning pending => exact absurd rfl h3
      · exact Option.noConfusion h
    | mainReturn =>
      simp only at h
      split at h
      · rename_i hcond
        have hs1 := Option.some.inj h
        subst hs1
        refine ⟨hsum, ?_, ?_⟩
        · intro hm
          exact Coordinator.noConfusion hm
        · intro _
          exact hdone (by rw [hcond]; exact fun h => Coordinator.noConfusion h)
      · exact Option.noConfusion h

theorem invariant_run (fs : FileSystem) (Match : Matcher) (pattern : GoString)
    (total : Multiset SearchResult) (evs : List Event) : ∀ (s s1 : Pipeline),
    Invariant fs Match pattern total s → run fs Match pattern s evs = some s1 →
    Invariant fs Match pattern total s1 := by
  induction evs with
  | nil =>
    intro s s1 hinv h
    simp only [run, Option.some.injEq] at h
    exact h ▸ hinv
  | cons ev evs ih =>
    intro s s1 hinv h
    rw [run] at h
    split at h
    · exact Option.noConfusion h
    · rename_i s2 hstep
      exact ih s2 s1 (invariant_step fs Match pattern total s s2 ev hinv hstep) h

theorem pendingSum_returned (workers : List Worker)
    (h : ∀ w ∈ workers, w = Worker.returned) : pendingSum workers = 0 := by
  induction workers with
  | nil => rfl
  | cons w ws ih =>
    have hw := h w (List.mem_cons_self _ _)
    subst hw
    have := ih (fun w hw => h w (List.mem_cons_of_mem _ hw))
    simpa [pendingSum, Worker.pending] using this

theorem emitted_of_exited (fs : FileSystem) (Match : Matcher) (pattern : GoString)
    (paths : List GoString) (n : Nat) (evs : List Event) (s : Pipeline)
    (h : run fs Match pattern (Pipeline.init paths n) evs = some s)
    (hexit : s.main = Coordinator.exited) :
    s.emitted.Perm (searchWorker fs Match pattern paths).results := by
  obtain ⟨hsum, _, hdone⟩ := invariant_run fs Match pattern _ evs _ s
    (invariant_init fs Match pattern paths n) h
  obtain ⟨hwalker, hworkers⟩ := hdone (by rw [hexit]; exact fun h => Coordinator.noConfusion h)
  rw [pendingSum_returned s.workers hworkers] at hsum
  simp only [walkerRest, hwalker, add_zero] at hsum
  exact Multiset.coe_eq_coe.1 hsum

theorem run_append (fs : FileSystem) (Match : Matcher) (pattern : GoString)
    (evs1 evs2 : List Event) : ∀ (s s1 : Pipeline),
    run fs Match pattern s evs1 = some s1 →
    run fs Match pattern s (evs1 ++ evs2) = run fs Match pattern s1 evs2 := by
  induction evs1 with
  | nil =>
    intro s s1 h
    simp only [run, Option.some.injEq] at h
    simp [h]
  | cons ev evs ih =>
    intro s s1 h
    rw [run] at h
    rw [List.cons_append, run]
    cases hstep : step fs Match pattern s ev with
    | none =>
      rw [hstep] at h
      exact Option.noConfusion h
    | some s2 =>
      rw [hstep] at h
      exact ih s2 s1 h

theorem run_emit_all (fs : FileSystem) (Match : Matcher) (pattern : GoString)
    (walker : Option (List GoString)) (ws : List Worker) (wg : Nat)
    (rs : List SearchResult) : ∀ (em : List SearchResult) (out : GoString),
    run fs Match pattern
      ⟨walker, Worker.scanning rs :: ws, Printer.receiving, false, wg, Coordinator.waiting,
        em, out⟩
      (emitSchedule rs)
    = some ⟨walker, Worker.scanning [] :: ws, Printer.receiving, false, wg,
        Coordinator.waiting, em ++ rs, out ++ printResults rs⟩ := by
  induction rs with
  | nil =>
    intro em out
    simp [emitSchedule, run, printResults]
  | cons r rs ih =>
    intro em out
    have h := printResults_append [r] rs
    rw [List.singleton_append] at h
    simp [emitSchedule, run, step, ih, h]

theorem run_fileSchedule (fs : FileSystem) (Match : Matcher) (pattern path : GoString)
    (rest : List GoString) (ws : List Worker) (wg : Nat)
    (em : List SearchResult) (out : GoString) :
    run fs Match pattern
      ⟨some (path :: rest), Worker.receiving :: ws, Printer.receiving, false, wg,
        Coordinator.waiting, em, out⟩
      (fileSchedule (searchWorker fs Match pattern [path]).results)
    = some ⟨some rest, Worker.receiving :: ws, Printer.receiving, false, wg,
        Coordinator.waiting, em ++ (searchWorker fs Match pattern [path]).results,
        out ++ printResults (searchWorker fs Match pattern [path]).results⟩ := by
  unfold fileSchedule
  rw [run]
  simp only [step, List.get?_cons_zero, List.set_cons_zero]
  rw [if_neg (by decide)]
  simp only
  rw [run_append fs Match pattern _ _ _ _ (run_emit_all fs Match pattern _ _ _ _ _ _)]
  simp [run, step]

theorem run_all_paths (fs : FileSystem) (Match : Matcher) (pattern : GoString)
    (ws : List Worker) (wg : Nat) (paths : List GoString) :
    ∀ (em : List SearchResult) (out : GoString),
    run fs Match pattern
      ⟨some paths, Worker.receiving :: ws, Printer.receiving, false, wg,
        Coordinator.waiting, em, out⟩
      (paths.flatMap (fun path => fileSchedule (searchWorker fs Match pattern [path]).results))
    = some ⟨some [], Worker.receiving :: ws, Printer.receiving, false, wg,
        Coordinator.waiting, em ++ (searchWorker fs Match pattern paths).results,
        out ++ printResults (searchWorker fs Match pattern paths).results⟩ := by
  induction paths with
  | nil =>
    intro em out
    simp [run, searchWorker_eq, printResults]
  | cons path rest ih =>
    intro em out
    rw [List.flatMap_cons,
      run_append fs Match pattern _ _ _ _ (run_fileSchedule fs Match pattern path rest ws wg em out),
      ih, results_cons fs Match pattern path rest, printResults_append]
    simp

theorem getOpt_length_append {α : Type} (pre : List α) (a : α) (t : List α) :
    (pre ++ a :: t).get? pre.length = some a := by
  induction pre with
  | nil => rfl
  | cons b pre ih => simpa using ih

theorem set_length_append {α : Type} (pre : List α) (a b : α) (t : List α) :
    (pre ++ a :: t).set pre.length b = pre ++ b :: t := by
  induction pre with
  | nil => rfl
  | cons c pre ih => simp

theorem run_workers_return (fs : FileSystem) (Match : Matcher) (pattern : GoString)
    (em : List SearchResult) (out : GoString) (m : Nat) : ∀ (pre : List Worker),
    run fs Match pattern
      ⟨none, pre ++ List.replicate m Worker.receiving, Printer.receiving, false, m,
        Coordinator.waiting, em, out⟩
      ((List.range' pre.length m).map Event.workerReturn)
    = some ⟨none, pre ++ List.replicate m Worker.returned, Printer.receiving, false, 0,
        Coordinator.waiting, em, out⟩ := by
  induction m with
  | zero =>
    intro pre
    simp [run]
  | succ m ih =>
    intro pre
    have h := ih (pre ++ [Worker.returned])
    simp only [List.length_append, List.length_singleton, List.append_assoc,
      List.singleton_append] at h
    rw [List.range'_succ, List.map_cons, run, List.replicate_succ]
    simp only [step, getOpt_length_append, set_length_append]
    rw [if_neg (by decide)]
    simp only [Nat.add_sub_cancel]
    rw [h, List.replicate_succ]

theorem run_sequentialSchedule (fs : FileSystem) (Match : Matcher) (pattern : GoString)
    (paths : List GoString) (n : Nat) :
    run fs Match pattern (Pipeline.init paths (n + 1))
      (sequentialSchedule fs Match pattern paths (n + 1))
    = some ⟨none, List.replicate (n + 1) Worker.returned, Printer.receiving, true, 0,
        Coordinator.exited, (searchWorker fs Match pattern paths).results,
        printResults (searchWorker fs Match pattern paths).results⟩ := by
  unfold sequentialSchedule Pipeline.init
  rw [List.replicate_succ, List.append_assoc, List.append_assoc,
    run_append fs Match pattern _ _ _ _
      (run_all_paths fs Match pattern _ _ paths [] [])]
  rw [List.singleton_append, run]
  simp only [step]
  rw [if_neg (by decide)]
  simp only [List.nil_append]
  have h := run_workers_return fs Match pattern
    (searchWorker fs Match pattern paths).results
    (printResults (searchWorker fs Match pattern paths).results) (n + 1) []
  simp only [List.nil_append, List.length_nil, List.replicate_succ] at h
  have hwg : 1 + (n + 1) - 1 = n + 1 := by omega
  rw [hwg, run_append fs Match pattern _ _ _ _ h]
  simp [run, step, List.replicate_succ]

/-- C7: for every tree, pattern and extension set and every worker count
`N ≥ 1`, the pipeline with `N` workers can run to completion, and in every
complete run (every way the paths go to the workers, every interleaving of
their emissions) the multiset of results handed to the result queue is the
multiset a single worker emits for all the offered paths, hence the same as
in every complete run with one worker. -/
theorem results_independent_of_worker_count (fs : FileSystem) (Match : Matcher)
    (pattern : GoString) (T : Entry) (E : ExtMap) (N : Nat) (hN : 1 ≤ N) :
    (∃ evs s, run fs Match pattern (Pipeline.init (walkFiles T E).sent N) evs = some s ∧
      s.main = Coordinator.exited) ∧
    (∀ evs s, run fs Match pattern (Pipeline.init (walkFiles T E).sent N) evs = some s →
      s.main = Coordinator.exited →
      (s.emitted : Multiset SearchResult)
        = ((searchWorker fs Match pattern (walkFiles T E).sent).results
            : Multiset SearchResult)) ∧
    (∀ evs s evs1 s1,
      run fs Match pattern (Pipeline.init (walkFiles T E).sent N) evs = some s →
      s.main = Coordinator.exited →
      run fs Match pattern (Pipeline.init (walkFiles T E).sent 1) evs1 = some s1 →
      s1.main = Coordinator.exited →
      (s.emitted : Multiset SearchResult) = (s1.emitted : Multiset SearchResult)) := by
  refine ⟨?_, ?_, ?_⟩
  · obtain ⟨n, rfl⟩ : ∃ n, N = n + 1 := ⟨N - 1, by omega⟩
    exact ⟨_, _, run_sequentialSchedule fs Match pattern _ n, rfl⟩
  · intro evs s h hexit
    exact Multiset.coe_eq_coe.2 (emitted_of_exited fs Match pattern _ N evs s h hexit)
  · intro evs s evs1 s1 h hexit h1 hexit1
    exact Multiset.coe_eq_coe.2
      ((emitted_of_exited fs Match pattern _ N evs s h hexit).trans
        (emitted_of_exited fs Match pattern _ 1 evs1 s1 h1 hexit1).symm)

/-- C7 on the scenario with the pattern `hello`: with two workers, worker 1
emitting the result of `b.go` before worker 0 emits that of `a.txt`, and with
one worker, the two complete runs emit the same multiset of results. -/
theorem results_independent_of_worker_count_witness :
    run scenarioFiles subsequence (str "hello")
        (Pipeline.init (walkFiles scenarioTree []).sent 2)
        [Event.offer 0, Event.offer 1, Event.emit 1, Event.print, Event.emit 0, Event.print,
         Event.fileDone 0, Event.fileDone 1, Event.walkerReturn, Event.workerReturn 0,
         Event.workerReturn 1, Event.mainClose, Event.mainReturn]
      = some ⟨none, [Worker.returned, Worker.returned], Printer.receiving, true, 0,
          Coordinator.exited,
          [⟨str "b.go", 1, str "hello there"⟩, ⟨str "a.txt", 1, str "hello world"⟩],
          str "Found in b.go:1: hello there\nFound in a.txt:1: hello world\n"⟩ ∧
    (([⟨str "b.go", 1, str "hello there"⟩, ⟨str "a.txt", 1, str "hello world"⟩]
        : List SearchResult) : Multiset SearchResult)
      = (([⟨str "a.txt", 1, str "hello world"⟩, ⟨str "b.go", 1, str "hello there"⟩]
        : List SearchResult) : Multiset SearchResult) :=
  ⟨by decide,
   (results_independent_of_worker_count scenarioFiles subsequence (str "hello")
      scenarioTree [] 2 (by decide)).2.2
      [Event.offer 0, Event.offer 1, Event.emit 1, Event.print, Event.emit 0, Event.print,
       Event.fileDone 0, Event.fileDone 1, Event.walkerReturn, Event.workerReturn 0,
       Event.workerReturn 1, Event.mainClose, Event.mainReturn]
      ⟨none, [Worker.returned, Worker.returned], Printer.receiving, true, 0,
        Coordinator.exited,
        [⟨str "b.go", 1, str "hello there"⟩, ⟨str "a.txt", 1, str "hello world"⟩],
        str "Found in b.go:1: hello there\nFound in a.txt:1: hello world\n"⟩
      (sequentialSchedule scenarioFiles subsequence (str "hello")
        (walkFiles scenarioTree []).sent 1)
      ⟨none, [Worker.returned], Printer.receiving, true, 0, Coordinator.exited,
        [⟨str "a.txt", 1, str "hello world"⟩, ⟨str "b.go", 1, str "hello there"⟩],
        str "Found in a.txt:1: hello world\nFound in b.go:1: hello there\n"⟩
      (by decide) rfl (by decide) rfl⟩

end FileSearcher
